import Mathlib

/-!
Verification development for the SBCK-python repository.

The repository's only visible source file is `setup.py`, the build script of
the compiled C++ extension.  Part A below is a shallow embedding of the pure
computations in `setup.py` (command-line scanning for the Eigen path, the
Eigen include-directory search, and the extension's declared metadata).
Part B models the optimal-transport core (sparse histograms and the network
simplex solver) that the specification describes; its headers
(`SparseHist.hpp`, `NetworkSimplex.hpp`, `NetworkSimplexLemon.hpp`) are not
present in the repository source, so those definitions are modelled from the
specification text.
-/

namespace SBCK

/-! ## Part A: the `setup.py` build script -/

/-- One step of the scan `for i,arg in enumerate(sys.argv)` in `setup.py`
(lines 39-43): an argument whose first five characters are `"eigen"`
overwrites the accumulator with the characters of the argument from index 6
onward and records the argument's position.  `acc` is the current value of
`eigen_usr_include`, `idx` the current value of `i_eigen` (initially `-1`). -/
def eigenFold : List String → Nat → String → Int → String × Int
  | [], _, acc, idx => (acc, idx)
  | a :: rest, i, acc, idx =>
      if a.take 5 = "eigen" then eigenFold rest (i + 1) (a.drop 6) (i : Int)
      else eigenFold rest (i + 1) acc idx

/-- The whole Eigen-option handling of `setup.py` (lines 37-46): scan
`sys.argv`, then `del sys.argv[i_eigen]` when a match was recorded.  Returns
the final `eigen_usr_include` and the final `sys.argv`. -/
def eigenParse (argv : List String) : String × List String :=
  let r := eigenFold argv 0 "" (-1)
  if r.2 > -1 then (r.1, argv.eraseIdx r.2.toNat) else (r.1, argv)

/-- Whether an argument matches the scan condition `arg[:5] == "eigen"`. -/
def eigenMatches (a : String) : Bool := a.take 5 = "eigen"

/-- The index of the last matching argument of `argv`, if any: the value
`i_eigen` holds after the scan. -/
def lastEigenIdx : List String → Option Nat
  | [] => none
  | a :: rest =>
      match lastEigenIdx rest with
      | some k => some (k + 1)
      | none => if eigenMatches a then some 0 else none

/-- POSIX `os.path.join` for two components, as used by `setup.py`: an
absolute second component replaces the first, otherwise the components are
glued with `/` unless the first is empty or already ends in `/`. -/
def pathJoin (a b : String) : String :=
  if b.startsWith "/" then b
  else if a = "" then b
  else if a.endsWith "/" then a ++ b
  else a ++ "/" ++ b

/-- POSIX `os.path.dirname`: everything before the final `/`, with trailing
slashes stripped unless the result consists only of slashes. -/
def dirname (p : String) : String :=
  let cs := p.data
  let i := (List.range cs.length).foldl
    (fun acc k => if cs.getD k ' ' = '/' then k + 1 else acc) 0
  let head := cs.take i
  if head ≠ [] ∧ head.any (· ≠ '/') then
    ⟨(head.reverse.dropWhile (· = '/')).reverse⟩
  else ⟨head⟩

/-- The candidate list built by `get_eigen_include` (lines 73-75 of
`setup.py`): the proposed path, the parent of the `sysconfig` include path,
two system prefixes, and `$HOME/.local/include` when `HOME` is set. -/
def eigenCandidates (proposePath sysconfigInclude : String)
    (home : Option String) : List String :=
  [proposePath, dirname sysconfigInclude, "/usr/include/", "/usr/local/include/"]
    ++ (match home with
        | some h => [pathJoin h ".local/include"]
        | none => [])

/-- The body of the `for path in possible_path` loop of `get_eigen_include`
(lines 77-88): return the first candidate `p` such that `p/Eigen` is a
directory (yielding `p`), or such that `p/eigen3/Eigen` is a directory
(yielding `p/eigen3`); return `""` when no candidate matches.  The
filesystem is abstracted by the predicate `isDir`. -/
def eigenIncludeLoop (isDir : String → Bool) : List String → String
  | [] => ""
  | p :: rest =>
      if isDir (pathJoin p "Eigen") then p
      else if isDir (pathJoin (pathJoin p "eigen3") "Eigen") then pathJoin p "eigen3"
      else eigenIncludeLoop isDir rest

/-- `get_eigen_include(propose_path)` from `setup.py`, with the filesystem,
the `sysconfig` include path and the `HOME` variable as explicit inputs. -/
def get_eigen_include (isDir : String → Bool) (sysconfigInclude : String)
    (home : Option String) (proposePath : String) : String :=
  eigenIncludeLoop isDir (eigenCandidates proposePath sysconfigInclude home)

/-- Result for one candidate directory, following the specification's words:
`p/Eigen` is checked first and yields `p`, else `p/eigen3/Eigen` yields
`p/eigen3`. -/
def eigenProbe (isDir : String → Bool) (p : String) : Option String :=
  if isDir (pathJoin p "Eigen") then some p
  else if isDir (pathJoin (pathJoin p "eigen3") "Eigen") then some (pathJoin p "eigen3")
  else none

/-- The candidate order exactly as the claim spells it out. -/
def eigenCandidatesSpec (proposePath sysconfigInclude : String)
    (home : Option String) : List String :=
  match home with
  | some h => [proposePath, dirname sysconfigInclude, "/usr/include/",
               "/usr/local/include/", pathJoin h ".local/include"]
  | none => [proposePath, dirname sysconfigInclude, "/usr/include/",
             "/usr/local/include/"]

/-- Specification-side restatement of the include-path search: the result for
the first candidate that matches, or `""` when none does. -/
def eigenIncludeSpec (isDir : String → Bool) (sysconfigInclude : String)
    (home : Option String) (proposePath : String) : String :=
  ((eigenCandidatesSpec proposePath sysconfigInclude home).findSome?
    (eigenProbe isDir)).getD ""

/-- The files visible in the repository source tree. -/
def repoSourceFiles : List String := ["setup.py"]

/-- The number of lines of `setup.py`, the only visible source file. -/
def setupPyLineCount : Nat := 226

/-- The three C++ header paths written as adjacent string literals in the
`depends` list of the Extension (lines 159-163 of `setup.py`). -/
def headerFiles : List String :=
  ["SBCK/tools/src/SparseHist.hpp",
   "SBCK/tools/src/NetworkSimplex.hpp",
   "SBCK/tools/src/NetworkSimplexLemon.hpp"]

/-- The source list of the single Extension in `ext_modules` (line 151 of
`setup.py`), relative to the repository root. -/
def extSources : List String := ["SBCK/tools/src/tools.cpp"]

/-- The `depends` list of the Extension exactly as Python evaluates it:
the three adjacent string literals concatenate implicitly into a single
element. -/
def extDepends : List String :=
  ["SBCK/tools/src/SparseHist.hpp"
   ++ "SBCK/tools/src/NetworkSimplex.hpp"
   ++ "SBCK/tools/src/NetworkSimplexLemon.hpp"]

/-! ## Part B: the optimal-transport core, modelled from the specification

The algorithmic core (the `SparseHist.hpp`, `NetworkSimplex.hpp` and
`NetworkSimplexLemon.hpp` headers) is not present in the repository source;
the definitions below are modelled from the specification's data model (§3),
component contracts (§4) and error taxonomy (§7).  Real-valued masses and
costs are modelled with exact rational arithmetic, so the specification's
numerical tolerance ε appears only where the specification makes it a
configuration item (the mass-mismatch check). -/

/-- Modelled from the spec: the error taxonomy of §7 for the missing core
(`SparseHist.hpp` / `NetworkSimplex.hpp`).  `nonConvergence` carries the
best flow found so far as diagnostic context. -/
inductive OTError where
  | emptyInput : OTError
  | massMismatch : ℚ → OTError
  | infeasibleGraph : OTError
  | nonConvergence : List ((Nat × Nat) × ℚ) → OTError
  deriving DecidableEq

instance {e a : Type} [DecidableEq e] [DecidableEq a] :
    DecidableEq (Except e a) := fun x y =>
  match x, y with
  | .ok u, .ok w =>
      if h : u = w then isTrue (by rw [h]) else isFalse (by simp [h])
  | .error u, .error w =>
      if h : u = w then isTrue (by rw [h]) else isFalse (by simp [h])
  | .ok _, .error _ => isFalse (by simp)
  | .error _, .ok _ => isFalse (by simp)

/-- Modelled from the spec: a Bin (§3) — an integer multi-index, a
representative center coordinate, and a probability mass. -/
structure Bin where
  index : List Int
  center : List ℚ
  mass : ℚ
  deriving DecidableEq

/-- Modelled from the spec: a SparseHistogram (§3) is an ordered collection
of Bins, order determined by construction. -/
abbrev SparseHistogram := List Bin

/-- The multi-index of the bin containing a sample: per-dimension division
by the bin width, rounded down. -/
def binIndex (widths x : List ℚ) : List Int :=
  List.zipWith (fun xi wi => ⌊xi / wi⌋) x widths

/-- The representative center of a bin with a given multi-index. -/
def binCenter (widths : List ℚ) (idx : List Int) : List ℚ :=
  List.zipWith (fun (ii : Int) (wi : ℚ) => ((ii : ℚ) + 1 / 2) * wi) idx widths

/-- Accumulate one sample's mass into the association list of occupied bins:
duplicates are merged by mass accumulation, a fresh bin is appended (so the
bin order is first-appearance order, deterministic in the input order). -/
def bump : List (List Int × ℚ) → List Int → ℚ → List (List Int × ℚ)
  | [], key, unit => [(key, unit)]
  | e :: rest, key, unit =>
      if e.1 = key then (e.1, e.2 + unit) :: rest
      else e :: bump rest key unit

/-- Modelled from the spec (`SparseHist.hpp` is absent): §4.1 — given a
sample matrix and a bin-width vector, produce the occupied bins with
normalized masses; zero samples fail with `EmptyInputError`; samples falling
in the same bin accumulate mass. -/
def sparseHist (samples : List (List ℚ)) (widths : List ℚ) :
    Except OTError SparseHistogram :=
  match samples with
  | [] => .error .emptyInput
  | _ :: _ =>
    let unit : ℚ := 1 / (samples.length : ℚ)
    let pairs := samples.foldl (fun acc x => bump acc (binIndex widths x) unit) []
    .ok (pairs.map (fun e => ⟨e.1, binCenter widths e.1, e.2⟩))

/-- Modelled from the spec: the default CostModel (§4.2), squared Euclidean
distance between bin centers. -/
def sqDist (x y : List ℚ) : ℚ := (List.zipWith (fun a b => (a - b) ^ 2) x y).sum

/-- Modelled from the spec: graph construction mode (§4.3 / §6). -/
inductive GraphMode where
  | dense : GraphMode
  | sparsified : GraphMode
  deriving DecidableEq

/-- Modelled from the spec: the mass-mismatch policy (§4.3 / §6). -/
inductive MassPolicy where
  | failOnMismatch : MassPolicy
  | rescale : MassPolicy
  deriving DecidableEq

/-- Modelled from the spec: the solver configuration surface (§6). -/
structure Config where
  mode : GraphMode
  kNeighbors : Nat
  cost : List ℚ → List ℚ → ℚ
  massPolicy : MassPolicy
  maxIterations : Nat
  eps : ℚ

/-- An arc of the bipartite transport graph: (source bin, sink bin). -/
abbrev Cell := Nat × Nat

/-- Flows are stored sparsely on the basic arcs, as the network simplex
does: an association list from arcs to flow values. -/
abbrev FlowList := List (Cell × ℚ)

def flowKeys (f : FlowList) : List Cell := f.map (·.1)

def flowAt (f : FlowList) (c : Cell) : ℚ :=
  ((f.find? (fun e => decide (e.1 = c))).map (·.2)).getD 0

/-- Sum of the flow values on arcs whose `pi`-projection equals `r`. -/
def projSum (pi : Cell → Nat) (f : FlowList) (r : Nat) : ℚ :=
  (f.map (fun e => if pi e.1 = r then e.2 else 0)).sum

/-- Total outflow of source bin `r` recorded in a flow list. -/
def rowSum (f : FlowList) (r : Nat) : ℚ :=
  projSum Prod.fst f r

/-- Total inflow of sink bin `c` recorded in a flow list. -/
def colSum (f : FlowList) (c : Nat) : ℚ :=
  projSum Prod.snd f c

/-- All arcs of the dense bipartite graph, in lexicographic order. -/
def prodCells (n m : Nat) : List Cell :=
  (List.range n).foldr (fun i acc => ((List.range m).map (fun j => (i, j))) ++ acc) []

/-- The `k` indices of `l` with smallest key, ties to the earlier index. -/
def pickMinBy (key : Nat → ℚ) : List Nat → Option Nat
  | [] => none
  | j :: rest =>
      match pickMinBy key rest with
      | none => some j
      | some b => if key b < key j then some b else some j

def kSmallest (key : Nat → ℚ) : Nat → List Nat → List Nat
  | 0, _ => []
  | k + 1, l =>
      match pickMinBy key l with
      | none => []
      | some j => j :: kSmallest key k (l.erase j)

/-- Modelled from the spec: §4.3 — the retained arcs.  Dense mode keeps all
arcs; sparsified mode keeps, for each source bin, its `k_neighbors` nearest
sink bins by cost, and symmetrically, the union of both directions. -/
def allowedArcs (cfg : Config) (cost : Nat → Nat → ℚ) (n m : Nat) :
    Cell → Bool :=
  match cfg.mode with
  | .dense => fun _ => true
  | .sparsified => fun c =>
      decide (c.2 ∈ kSmallest (fun j => cost c.1 j) cfg.kNeighbors (List.range m)) ||
      decide (c.1 ∈ kSmallest (fun i => cost i c.2) cfg.kNeighbors (List.range n))

/-- The arcs the greedy initialization may still use: allowed arcs whose
source bin has remaining supply and whose sink bin has remaining demand. -/
def greedyCandidates (allowed : Cell → Bool) (s d : List ℚ) : List Cell :=
  (prodCells s.length d.length).filter
    (fun c => allowed c && decide (0 < s.getD c.1 0) && decide (0 < d.getD c.2 0))

/-- The first cost-minimal cell of the list (ties to the earlier cell, hence
lexicographically smallest for a lexicographically ordered list). -/
def pickMinCost (cost : Nat → Nat → ℚ) : List Cell → Option Cell
  | [] => none
  | c :: rest =>
      match pickMinCost cost rest with
      | none => some c
      | some b => if cost b.1 b.2 < cost c.1 c.2 then some b else some c

/-- Modelled from the spec: §4.4 step 1 — greedy minimum-cost initial basic
feasible solution.  Repeatedly assign `min(supply, demand)` on the cheapest
usable arc; succeed once every supply and demand is exactly exhausted; fail
with `InfeasibleGraphError` when mass remains but no usable arc exists (a
disconnected sparsified graph). -/
def greedyLoop (allowed : Cell → Bool) (cost : Nat → Nat → ℚ) :
    Nat → List ℚ → List ℚ → FlowList → Except OTError FlowList
  | 0, _, _, _ => .error .infeasibleGraph
  | fuel + 1, s, d, acc =>
    match pickMinCost cost (greedyCandidates allowed s d) with
    | none =>
        if s.all (fun v => decide (v = 0)) && d.all (fun v => decide (v = 0)) then
          .ok acc
        else .error .infeasibleGraph
    | some c =>
        let t := min (s.getD c.1 0) (d.getD c.2 0)
        greedyLoop allowed cost fuel (s.set c.1 (s.getD c.1 0 - t))
          (d.set c.2 (d.getD c.2 0 - t)) (acc ++ [(c, t)])

/-- Number of strictly positive entries of a remaining supply or demand
vector. -/
def posCount (l : List ℚ) : Nat := l.countP (fun v => decide (0 < v))

/-- State of the dual-variable computation: optional potentials per source
node and per sink node. -/
structure PotState where
  u : Nat → Option ℚ
  v : Nat → Option ℚ

/-- Propagate one basic arc: a known potential on one endpoint determines
the other endpoint through `cost = u + v`. -/
def potKey (cost : Nat → Nat → ℚ) (st : PotState) (c : Cell) : PotState :=
  match st.u c.1, st.v c.2 with
  | some uv, none =>
      ⟨st.u, fun j => if j = c.2 then some (cost c.1 c.2 - uv) else st.v j⟩
  | none, some vv =>
      ⟨fun i => if i = c.1 then some (cost c.1 c.2 - vv) else st.u i, st.v⟩
  | _, _ => st

def potRound (cost : Nat → Nat → ℚ) (keys : List Cell) (st : PotState) :
    PotState :=
  keys.foldl (potKey cost) st

def potRounds (cost : Nat → Nat → ℚ) (keys : List Cell) :
    Nat → PotState → PotState
  | 0, st => st
  | r + 1, st => potRounds cost keys r (potRound cost keys st)

/-- Seed each connected component of the basis forest at its first source
node and propagate along basic arcs to a fixed point. -/
def potSeedLoop (cost : Nat → Nat → ℚ) (keys : List Cell) (rounds : Nat) :
    List Nat → PotState → PotState
  | [], st => st
  | r :: rest, st =>
      let st' :=
        if (st.u r).isNone then
          potRounds cost keys rounds
            ⟨fun i => if i = r then some 0 else st.u i, st.v⟩
        else st
      potSeedLoop cost keys rounds rest st'

/-- Modelled from the spec: §4.4 step 2 — node potentials consistent with
the current basis (`cost i j = u i + v j` on every basic arc of a spanning
forest), unset potentials defaulting to 0. -/
def potentials (cost : Nat → Nat → ℚ) (keys : List Cell) (n m : Nat) :
    (Nat → ℚ) × (Nat → ℚ) :=
  let st := potSeedLoop cost keys (n + m) (List.range n) ⟨fun _ => none, fun _ => none⟩
  (fun i => (st.u i).getD 0, fun j => (st.v j).getD 0)

/-- Reduced cost of an arc under node potentials. -/
def reducedCost (cost : Nat → Nat → ℚ) (u v : Nat → ℚ) (c : Cell) : ℚ :=
  cost c.1 c.2 - u c.1 - v c.2

/-- Non-basic allowed arcs with negative reduced cost, in lexicographic
order. -/
def enteringCandidates (allowed : Cell → Bool) (cost : Nat → Nat → ℚ)
    (keys : List Cell) (u v : Nat → ℚ) (n m : Nat) : List Cell :=
  (prodCells n m).filter
    (fun c => allowed c && decide (c ∉ keys) && decide (reducedCost cost u v c < 0))

/-- The first cell with most negative reduced cost (ties lexicographic). -/
def pickMostNegative (cost : Nat → Nat → ℚ) (u v : Nat → ℚ) :
    List Cell → Option Cell
  | [] => none
  | c :: rest =>
      match pickMostNegative cost u v rest with
      | none => some c
      | some b =>
          if reducedCost cost u v b < reducedCost cost u v c then some b
          else some c

/-- Modelled from the spec: §4.4 step 3 — entering-arc selection: scan
non-basic arcs for the most negative reduced cost, ties broken by lowest
(source index, sink index); `none` means the current solution is optimal. -/
def enteringArc (allowed : Cell → Bool) (cost : Nat → Nat → ℚ)
    (keys : List Cell) (n m : Nat) : Option Cell :=
  let p := potentials cost keys n m
  pickMostNegative cost p.1 p.2 (enteringCandidates allowed cost keys p.1 p.2 n m)

/-- Depth-first search for the alternating cycle closed by the entering arc
`(r0, j0)`: from the current row `r`, either a basic arc back to column `j0`
closes the cycle, or a basic arc `(r, c)` to a fresh column followed by a
basic arc `(r', c)` to a fresh row continues it.  Returns the list of
"plus" cells after the entering arc. -/
def findCycleAux (basis : List Cell) (j0 : Nat) :
    Nat → Nat → List Nat → List Nat → Option (List Cell)
  | 0, _, _, _ => none
  | fuel + 1, r, visR, visC =>
    if decide ((r, j0) ∈ basis) then some []
    else
      basis.findSome? (fun mc =>
        if mc.1 = r ∧ mc.2 ∉ visC then
          basis.findSome? (fun pc =>
            if pc.2 = mc.2 ∧ pc.1 ∉ visR then
              (findCycleAux basis j0 fuel pc.1 (pc.1 :: visR) (mc.2 :: visC)).map
                (fun rest => (pc.1, mc.2) :: rest)
            else none)
        else none)

/-- Modelled from the spec: §4.4 step 4 — the unique cycle formed by adding
the entering arc to the basis tree, represented by its "plus" cells
(entering arc first). -/
def findCycle (basis : List Cell) (e : Cell) : Option (List Cell) :=
  (findCycleAux basis e.2 (basis.length + 1) e.1 [e.1] [e.2]).map
    (fun rest => e :: rest)

/-- The chain property of a cycle tail relative to a basis: starting from
row `r`, each step's minus arc `(r, c')` is basic and the walk continues
from the plus arc's row, closing on a basic arc back to column `j0`. -/
def MinusChain (basis : List Cell) (j0 : Nat) : Nat → List Cell → Prop
  | r, [] => (r, j0) ∈ basis
  | r, (r', c') :: rest => (r, c') ∈ basis ∧ MinusChain basis j0 r' rest

/-- The "minus" cells of an alternating cycle given by its "plus" cells:
same rows, columns rotated by one. -/
def minusCells (cyc : List Cell) : List Cell :=
  (cyc.map (·.1)).zip ((cyc.map (·.2)).rotate 1)

/-- Net signed multiplicity of an arc in the cycle. -/
def cycleCoeff (cyc : List Cell) (c : Cell) : ℚ :=
  (cyc.count c : ℚ) - ((minusCells cyc).count c : ℚ)

/-- Push `t` units of flow around the cycle. -/
def applyCycle (cyc : List Cell) (t : ℚ) (f : FlowList) : FlowList :=
  f.map (fun e => (e.1, e.2 + t * cycleCoeff cyc e.1))

/-- The leaving arc: the minus cell with the smallest flow value, ties
broken by lowest (source index, sink index), together with that bound. -/
def selectLeaving (f : FlowList) : List Cell → Option (Cell × ℚ)
  | [] => none
  | c :: rest =>
      match selectLeaving f rest with
      | none => some (c, flowAt f c)
      | some (b, tb) =>
          if flowAt f c < tb ∨
             (flowAt f c = tb ∧ (c.1 < b.1 ∨ (c.1 = b.1 ∧ c.2 < b.2))) then
            some (c, flowAt f c)
          else some (b, tb)

/-- Modelled from the spec: §4.4 step 4 — the pivot: add the entering arc
with zero flow, push the tightest residual bound `t` around the cycle, and
remove the leaving arc (which hits zero).  Degenerate pivots (`t = 0`) are
permitted. -/
def pivot (f : FlowList) (e : Cell) (cyc : List Cell) : FlowList :=
  let f1 : FlowList := (e, 0) :: f
  match selectLeaving f1 (minusCells cyc) with
  | none => f
  | some (lv, t) => (applyCycle cyc t f1).eraseP (fun x => decide (x.1 = lv))

/-- Modelled from the spec (`NetworkSimplex.hpp` is absent): §4.4 steps 2-5
— the pivoting loop of the network simplex, bounded by the iteration cap;
reaching the cap before optimality raises `NonConvergenceError` carrying
the best flow found so far as diagnostic context. -/
def solveLoop (allowed : Cell → Bool) (cost : Nat → Nat → ℚ) (n m : Nat) :
    Nat → FlowList → Except OTError FlowList
  | 0, f => .error (.nonConvergence f)
  | fuel + 1, f =>
    match enteringArc allowed cost (flowKeys f) n m with
    | none => .ok f
    | some e =>
      match findCycle (flowKeys f) e with
      | none => solveLoop allowed cost n m fuel f
      | some cyc => solveLoop allowed cost n m fuel (pivot f e cyc)

/-- Modelled from the spec: a TransportPlan (§3/§4.5) — the sparse map of
strictly positive transported masses. -/
abbrev TransportPlan := List (Cell × ℚ)

/-- Modelled from the spec: §4.5 — the plan is assembled purely from the
final flow values; non-positive entries are dropped. -/
def assemblePlan (f : FlowList) : TransportPlan :=
  f.filter (fun e => decide (0 < e.2))

/-- Total transport cost: sum of flow times cost over all plan entries. -/
def planCost (cost : Nat → Nat → ℚ) (p : TransportPlan) : ℚ :=
  (p.map (fun e => e.2 * cost e.1.1 e.1.2)).sum

def histMasses (H : SparseHistogram) : List ℚ := H.map (·.mass)

def histCenter (H : SparseHistogram) (i : Nat) : List ℚ :=
  ((H[i]?).map (·.center)).getD []

/-- Mass of the `i`-th bin of a histogram (0 beyond the end). -/
def histMass (H : SparseHistogram) (i : Nat) : ℚ :=
  ((H[i]?).map (·.mass)).getD 0

/-- Modelled from the spec (`NetworkSimplex.hpp` is absent): the whole
solver (§4.3-§4.5): validate the inputs and the mass-mismatch policy, build
the cost function and the retained arc set, run the greedy initialization
and the network-simplex loop, and assemble the transport plan and its total
cost. -/
def otSolve (cfg : Config) (A B : SparseHistogram) :
    Except OTError (TransportPlan × ℚ) :=
  if A.length = 0 ∨ B.length = 0 then .error .emptyInput
  else
    let sups := histMasses A
    let demsRaw := histMasses B
    let totA := sups.sum
    let totB := demsRaw.sum
    let checked : Except OTError (List ℚ) :=
      match cfg.massPolicy with
      | .failOnMismatch =>
          if |totA - totB| ≤ cfg.eps then .ok demsRaw
          else .error (.massMismatch (totA - totB))
      | .rescale => .ok (demsRaw.map (fun v => v * (totA / totB)))
    checked.bind (fun dems =>
      let cost := fun i j => cfg.cost (histCenter A i) (histCenter B j)
      let allowed := allowedArcs cfg cost A.length B.length
      (greedyLoop allowed cost (A.length + B.length + 1) sups dems []).bind
        (fun f0 =>
          (solveLoop allowed cost A.length B.length cfg.maxIterations f0).map
            (fun fF => (assemblePlan fF, planCost cost (assemblePlan fF)))))

/-- The full pipeline: raw samples to transport plan (§2 data flow). -/
def pipeline (cfg : Config) (wA wB : List ℚ) (sA sB : List (List ℚ)) :
    Except OTError (TransportPlan × ℚ) :=
  (sparseHist sA wA).bind (fun A =>
    (sparseHist sB wB).bind (fun B => otSolve cfg A B))

/-! ### Lemmas about the Eigen option scan -/

theorem lastEigenIdx_cons (a : String) (rest : List String) :
    lastEigenIdx (a :: rest) =
      match lastEigenIdx rest with
      | some k => some (k + 1)
      | none => if eigenMatches a then some 0 else none := rfl

theorem eigenMatches_true_iff (a : String) :
    eigenMatches a = true ↔ a.take 5 = "eigen" := by
  simp [eigenMatches]

theorem eigenFold_eq (l : List String) (i : Nat) (acc : String) (idx : Int) :
    eigenFold l i acc idx =
      match lastEigenIdx l with
      | none => (acc, idx)
      | some k => (((l.drop k).headD "").drop 6, ((i + k : Nat) : Int)) := by
  induction l generalizing i acc idx with
  | nil => rfl
  | cons a rest ih =>
    rw [lastEigenIdx_cons]
    by_cases h : a.take 5 = "eigen"
    · have hm : eigenMatches a = true := (eigenMatches_true_iff a).mpr h
      rw [eigenFold, if_pos h, ih]
      cases hr : lastEigenIdx rest with
      | none =>
        simp [hm]
      | some k =>
        show (((List.drop k rest).headD "").drop 6, ((i + 1 + k : Nat) : Int))
          = (((List.drop (k + 1) (a :: rest)).headD "").drop 6, ((i + (k + 1) : Nat) : Int))
        have hnat : (i + 1 + k : Nat) = i + (k + 1) := by omega
        rw [List.drop_succ_cons, hnat]
    · rw [eigenFold, if_neg h, ih]
      cases hr : lastEigenIdx rest with
      | none =>
        have hm : eigenMatches a = false := by
          rw [Bool.eq_false_iff]
          intro hc
          exact h ((eigenMatches_true_iff a).mp hc)
        simp [hm]
      | some k =>
        show (((List.drop k rest).headD "").drop 6, ((i + 1 + k : Nat) : Int))
          = (((List.drop (k + 1) (a :: rest)).headD "").drop 6, ((i + (k + 1) : Nat) : Int))
        have hnat : (i + 1 + k : Nat) = i + (k + 1) := by omega
        rw [List.drop_succ_cons, hnat]

theorem eigenParse_eq (argv : List String) :
    eigenParse argv =
      match lastEigenIdx argv with
      | none => ("", argv)
      | some k => (((argv.drop k).headD "").drop 6, argv.eraseIdx k) := by
  cases h : lastEigenIdx argv with
  | none =>
    show eigenParse argv = ("", argv)
    unfold eigenParse
    rw [eigenFold_eq, h]
    norm_num
  | some k =>
    show eigenParse argv = (((argv.drop k).headD "").drop 6, argv.eraseIdx k)
    unfold eigenParse
    rw [eigenFold_eq, h]
    have h1 : ((0 + k : Nat) : Int) > -1 := by omega
    rw [if_pos h1]
    simp

theorem lastEigenIdx_none_sound (l : List String) (h : lastEigenIdx l = none) :
    ∀ j < l.length, eigenMatches ((l.drop j).headD "") = false := by
  induction l with
  | nil => intro j hj; simp at hj
  | cons a rest ih =>
    intro j hj
    rw [lastEigenIdx] at h
    cases hr : lastEigenIdx rest with
    | none =>
      rw [hr] at h
      cases j with
      | zero =>
        simp only [List.drop_zero, List.headD_cons]
        by_cases hm : eigenMatches a
        · simp [hm] at h
        · simpa using hm
      | succ j =>
        rw [List.drop_succ_cons]
        exact ih hr j (by simpa using hj)
    | some k => rw [hr] at h; simp at h

theorem lastEigenIdx_some_sound (l : List String) (k : Nat)
    (h : lastEigenIdx l = some k) :
    k < l.length ∧ eigenMatches ((l.drop k).headD "") = true ∧
      ∀ j, k < j → j < l.length → eigenMatches ((l.drop j).headD "") = false := by
  induction l generalizing k with
  | nil => simp [lastEigenIdx] at h
  | cons a rest ih =>
    rw [lastEigenIdx] at h
    cases hr : lastEigenIdx rest with
    | none =>
      rw [hr] at h
      by_cases hm : eigenMatches a
      · rw [if_pos hm] at h
        obtain rfl : k = 0 := by simpa using h.symm
        refine ⟨by simp, by simpa using hm, ?_⟩
        intro j hj0 hjlen
        obtain ⟨j', rfl⟩ : ∃ j', j = j' + 1 := ⟨j - 1, by omega⟩
        rw [List.drop_succ_cons]
        exact lastEigenIdx_none_sound rest hr j' (by simpa using hjlen)
      · rw [if_neg hm] at h; simp at h
    | some k' =>
      rw [hr] at h
      obtain rfl : k = k' + 1 := by simpa using h.symm
      obtain ⟨h1, h2, h3⟩ := ih k' hr
      refine ⟨by simpa using h1, by simpa using h2, ?_⟩
      intro j hj0 hjlen
      obtain ⟨j', rfl⟩ : ∃ j', j = j' + 1 := ⟨j - 1, by omega⟩
      rw [List.drop_succ_cons]
      exact h3 j' (by omega) (by simpa using hjlen)

/-- Claim C8: the Eigen command-line scan.  For every initial `sys.argv`:
when no argument has first five characters `"eigen"`, the value stays `""`
and `sys.argv` is unchanged; otherwise the last matching argument wins, the
value is that argument's characters from index 6 onward, and exactly that
one argument is deleted from `sys.argv` while all earlier arguments
(including earlier matches) stay in place. -/
theorem eigen_option_parsing (argv : List String) :
    (lastEigenIdx argv = none →
       eigenParse argv = ("", argv) ∧
       ∀ j < argv.length, eigenMatches ((argv.drop j).headD "") = false) ∧
    (∀ k, lastEigenIdx argv = some k →
       eigenParse argv = (((argv.drop k).headD "").drop 6, argv.eraseIdx k) ∧
       eigenMatches ((argv.drop k).headD "") = true ∧
       (∀ j, k < j → j < argv.length →
          eigenMatches ((argv.drop j).headD "") = false) ∧
       (∀ j, j < k → (argv.eraseIdx k)[j]? = argv[j]?) ∧
       (argv.eraseIdx k).length = argv.length - 1) := by
  constructor
  · intro h
    refine ⟨?_, lastEigenIdx_none_sound argv h⟩
    rw [eigenParse_eq, h]
  · intro k h
    obtain ⟨h1, h2, h3⟩ := lastEigenIdx_some_sound argv k h
    refine ⟨?_, h2, h3, ?_, ?_⟩
    · rw [eigenParse_eq, h]
    · intro j hj
      exact List.getElem?_eraseIdx_of_lt argv k j hj
    · rw [List.length_eraseIdx]
      simp [h1]

/-- Witness for claim C8 at a concrete command line: two matching arguments,
the last wins (`"eigen=/opt/e3"` yields `"/opt/e3"`) and only it is
removed, the earlier `"eigen=OLD"` remains. -/
theorem eigen_option_parsing_witness :
    eigenParse ["setup.py", "eigen=OLD", "build", "eigen=/opt/e3"] =
      ("/opt/e3", ["setup.py", "eigen=OLD", "build"]) := by
  have h :=
    ((eigen_option_parsing ["setup.py", "eigen=OLD", "build", "eigen=/opt/e3"]).2
      3 (by decide)).1
  rw [h]
  decide

/-! ### Lemmas about the include-path search -/

theorem eigenIncludeLoop_eq_findSome (isDir : String → Bool) (L : List String) :
    eigenIncludeLoop isDir L = (L.findSome? (eigenProbe isDir)).getD "" := by
  induction L with
  | nil => rfl
  | cons p rest ih =>
    rw [eigenIncludeLoop, List.findSome?_cons]
    cases h1 : isDir (pathJoin p "Eigen") with
    | true => simp [eigenProbe, h1]
    | false =>
      cases h2 : isDir (pathJoin (pathJoin p "eigen3") "Eigen") with
      | true => simp [eigenProbe, h1, h2]
      | false => simp [eigenProbe, h1, h2, ih]

theorem eigenCandidates_eq_spec (proposePath sysconfigInclude : String)
    (home : Option String) :
    eigenCandidates proposePath sysconfigInclude home =
      eigenCandidatesSpec proposePath sysconfigInclude home := by
  cases home <;> rfl

/-- Claim C10: `get_eigen_include` returns the result for the first candidate
path, in the fixed order (proposed path, parent of the sysconfig include
path, `/usr/include/`, `/usr/local/include/`, then `$HOME/.local/include`
only when `HOME` is set), for which `p/Eigen` is a directory (yielding `p`)
or else `p/eigen3/Eigen` is a directory (yielding `p/eigen3`), the `p/Eigen`
check taking priority; when no candidate matches it totally returns `""`. -/
theorem eigen_include_resolution (isDir : String → Bool)
    (sysconfigInclude : String) (home : Option String) (proposePath : String) :
    get_eigen_include isDir sysconfigInclude home proposePath
      = eigenIncludeSpec isDir sysconfigInclude home proposePath := by
  unfold get_eigen_include eigenIncludeSpec
  rw [eigenIncludeLoop_eq_findSome, eigenCandidates_eq_spec]

/-- Claim C7 counterexample: the visible repository source (`setup.py`) has
226 lines, not 227. -/
theorem setupPy_not_227_lines : setupPyLineCount ≠ 227 := by decide

/-- Claim C7 (amended): the visible repository source is the single build
script `setup.py` of 226 lines; the three core headers are not among the
repository's source files nor among the extension's compiled sources, and
appear only (concatenated) in the extension's declared `depends` list. -/
theorem repo_core_headers_absent :
    setupPyLineCount = 226 ∧
    repoSourceFiles = ["setup.py"] ∧
    extDepends = [String.join headerFiles] ∧
    ("SBCK/tools/src/SparseHist.hpp" ∉ extSources ∧
     "SBCK/tools/src/SparseHist.hpp" ∉ repoSourceFiles) ∧
    ("SBCK/tools/src/NetworkSimplex.hpp" ∉ extSources ∧
     "SBCK/tools/src/NetworkSimplex.hpp" ∉ repoSourceFiles) ∧
    ("SBCK/tools/src/NetworkSimplexLemon.hpp" ∉ extSources ∧
     "SBCK/tools/src/NetworkSimplexLemon.hpp" ∉ repoSourceFiles) := by
  decide

/-- Claim C9: the `depends` list of the single Extension holds exactly one
element, the implicit concatenation of the three adjacent header string
literals. -/
theorem depends_single_concatenated :
    extDepends.length = 1 ∧
    extDepends =
      ["SBCK/tools/src/SparseHist.hppSBCK/tools/src/NetworkSimplex.hppSBCK/tools/src/NetworkSimplexLemon.hpp"] := by
  constructor
  · rfl
  · decide

/-! ### Histogram construction lemmas -/

theorem bump_snd_sum (l : List (List Int × ℚ)) (key : List Int) (unit : ℚ) :
    ((bump l key unit).map (·.2)).sum = (l.map (·.2)).sum + unit := by
  induction l with
  | nil => simp [bump]
  | cons e rest ih =>
    rw [bump]
    by_cases h : e.1 = key
    · rw [if_pos h]
      simp only [List.map_cons, List.sum_cons]
      ring
    · rw [if_neg h]
      simp only [List.map_cons, List.sum_cons, ih]
      ring

theorem bump_keys (l : List (List Int × ℚ)) (key : List Int) (unit : ℚ) :
    (bump l key unit).map (·.1) =
      if key ∈ l.map (·.1) then l.map (·.1) else l.map (·.1) ++ [key] := by
  induction l with
  | nil => simp [bump]
  | cons e rest ih =>
    rw [bump]
    by_cases h : e.1 = key
    · rw [if_pos h]
      simp [h]
    · rw [if_neg h]
      simp only [List.map_cons, ih]
      by_cases hm : key ∈ rest.map (·.1)
      · rw [if_pos hm, if_pos (by simp [hm])]
      · rw [if_neg hm, if_neg (by simp [hm]; exact fun hk => h hk.symm), List.cons_append]

theorem bump_keys_nodup (l : List (List Int × ℚ)) (key : List Int) (unit : ℚ)
    (h : (l.map (·.1)).Nodup) : ((bump l key unit).map (·.1)).Nodup := by
  rw [bump_keys]
  by_cases hm : key ∈ l.map (·.1)
  · rwa [if_pos hm]
  · rw [if_neg hm]
    simp [List.nodup_append, h, hm]

theorem bump_pos (l : List (List Int × ℚ)) (key : List Int) (unit : ℚ)
    (hu : 0 < unit) (h : ∀ e ∈ l, 0 < e.2) : ∀ e ∈ bump l key unit, 0 < e.2 := by
  induction l with
  | nil =>
    intro e he
    simp only [bump, List.mem_singleton] at he
    simpa [he] using hu
  | cons a rest ih =>
    intro e he
    rw [bump] at he
    by_cases hk : a.1 = key
    · rw [if_pos hk] at he
      rcases List.mem_cons.mp he with h1 | h1
      · have := h a (by simp)
        subst h1
        have : (0 : ℚ) < a.2 + unit := by positivity
        simpa using this
      · exact h e (List.mem_cons_of_mem a h1)
    · rw [if_neg hk] at he
      rcases List.mem_cons.mp he with h1 | h1
      · subst h1
        exact h e (by simp)
      · exact ih (fun x hx => h x (List.mem_cons_of_mem a hx)) e h1

theorem bump_keys_subset (l : List (List Int × ℚ)) (key : List Int) (unit : ℚ) :
    ∀ k ∈ (bump l key unit).map (·.1), k ∈ l.map (·.1) ∨ k = key := by
  intro k hk
  rw [bump_keys] at hk
  by_cases hm : key ∈ l.map (·.1)
  · rw [if_pos hm] at hk
    exact Or.inl hk
  · rw [if_neg hm] at hk
    rcases List.mem_append.mp hk with h1 | h1
    · exact Or.inl h1
    · exact Or.inr (by simpa using h1)

theorem bump_length_pos (l : List (List Int × ℚ)) (key : List Int) (unit : ℚ) :
    0 < (bump l key unit).length := by
  cases l with
  | nil => simp [bump]
  | cons e rest =>
    rw [bump]
    by_cases h : e.1 = key
    · rw [if_pos h]; simp
    · rw [if_neg h]; simp

/-- The accumulating fold of `sparseHist`. -/
theorem histFold_snd_sum (samples : List (List ℚ)) (w : List ℚ) (unit : ℚ)
    (acc : List (List Int × ℚ)) :
    ((samples.foldl (fun a x => bump a (binIndex w x) unit) acc).map (·.2)).sum
      = (acc.map (·.2)).sum + samples.length * unit := by
  induction samples generalizing acc with
  | nil => simp
  | cons x rest ih =>
    rw [List.foldl_cons, ih, bump_snd_sum, List.length_cons]
    push_cast
    ring

theorem histFold_keys_nodup (samples : List (List ℚ)) (w : List ℚ) (unit : ℚ)
    (acc : List (List Int × ℚ)) (h : (acc.map (·.1)).Nodup) :
    (((samples.foldl (fun a x => bump a (binIndex w x) unit) acc)).map (·.1)).Nodup := by
  induction samples generalizing acc with
  | nil => simpa
  | cons x rest ih =>
    rw [List.foldl_cons]
    exact ih _ (bump_keys_nodup _ _ _ h)

theorem histFold_pos (samples : List (List ℚ)) (w : List ℚ) (unit : ℚ)
    (acc : List (List Int × ℚ)) (hu : 0 < unit) (h : ∀ e ∈ acc, 0 < e.2) :
    ∀ e ∈ samples.foldl (fun a x => bump a (binIndex w x) unit) acc, 0 < e.2 := by
  induction samples generalizing acc with
  | nil => exact h
  | cons x rest ih =>
    rw [List.foldl_cons]
    exact ih _ (bump_pos _ _ _ hu h)

theorem histFold_keys_from (samples : List (List ℚ)) (w : List ℚ) (unit : ℚ)
    (acc : List (List Int × ℚ))
    (P : List Int → Prop) (hacc : ∀ k ∈ acc.map (·.1), P k)
    (hs : ∀ x ∈ samples, P (binIndex w x)) :
    ∀ k ∈ (samples.foldl (fun a x => bump a (binIndex w x) unit) acc).map (·.1), P k := by
  induction samples generalizing acc with
  | nil => exact hacc
  | cons x rest ih =>
    rw [List.foldl_cons]
    refine ih _ ?_ (fun y hy => hs y (List.mem_cons_of_mem x hy))
    intro k hk
    rcases bump_keys_subset acc (binIndex w x) unit k hk with h1 | h1
    · exact hacc k h1
    · rw [h1]
      exact hs x (by simp)

theorem histFold_length_pos (samples : List (List ℚ)) (w : List ℚ) (unit : ℚ)
    (acc : List (List Int × ℚ)) (h : 0 < acc.length ∨ samples ≠ []) :
    0 < (samples.foldl (fun a x => bump a (binIndex w x) unit) acc).length := by
  induction samples generalizing acc with
  | nil =>
    rcases h with h | h
    · simpa
    · exact absurd rfl h
  | cons x rest ih =>
    rw [List.foldl_cons]
    exact ih _ (Or.inl (bump_length_pos _ _ _))

/-- Claim C4: `sparseHist` fails with `EmptyInputError` exactly on an empty
sample matrix; on success the histogram is returned with at least one
occupied bin (so "zero occupied bins" can only arise from zero samples),
and no histogram value accompanies the error. -/
theorem empty_input_error (samples : List (List ℚ)) (w : List ℚ) :
    (sparseHist samples w = .error .emptyInput ↔ samples = []) ∧
    (∀ H, sparseHist samples w = .ok H → 0 < H.length) := by
  constructor
  · constructor
    · intro h
      cases samples with
      | nil => rfl
      | cons x rest => simp [sparseHist] at h
    · intro h
      subst h
      rfl
  · intro H h
    cases samples with
    | nil => simp [sparseHist] at h
    | cons x rest =>
      simp only [sparseHist, Except.ok.injEq] at h
      rw [← h, List.length_map]
      exact histFold_length_pos _ _ _ _ (Or.inr (by simp))

/-- Witness for claim C4: a one-sample input succeeds with one occupied
bin (and hence does not raise `EmptyInputError`). -/
theorem empty_input_error_witness :
    0 < ([⟨[0], [1/2], 1⟩] : SparseHistogram).length :=
  (empty_input_error [[0]] [1]).2 [⟨[0], [1/2], 1⟩]
    (by simp [sparseHist, bump, binIndex, binCenter])

/-- Claim C3: determinism of the whole pipeline.  The model is a pure
function of the sample inputs and the configuration (graph mode,
k-neighbors, cost function, mass-mismatch policy, iteration cap,
tolerance): two runs on identical inputs return identical transport plans
and total costs, and histogram construction returns an identical bin list
(set and ordering) on identical input. -/
theorem pipeline_deterministic (cfg cfg' : Config) (wA wB wA' wB' : List ℚ)
    (sA sB sA' sB' : List (List ℚ))
    (hcfg : cfg = cfg') (hwA : wA = wA') (hwB : wB = wB')
    (hsA : sA = sA') (hsB : sB = sB') :
    pipeline cfg wA wB sA sB = pipeline cfg' wA' wB' sA' sB' ∧
    sparseHist sA wA = sparseHist sA' wA' := by
  subst hcfg hwA hwB hsA hsB
  exact ⟨rfl, rfl⟩

/-- Witness for claim C3 at a concrete run. -/
theorem pipeline_deterministic_witness :
    pipeline ⟨GraphMode.dense, 0, sqDist, MassPolicy.failOnMismatch, 4, 0⟩
        [1] [1] [[0]] [[0]]
      = pipeline ⟨GraphMode.dense, 0, sqDist, MassPolicy.failOnMismatch, 4, 0⟩
        [1] [1] [[0]] [[0]] ∧
    sparseHist [[0]] [1] = sparseHist [[0]] [1] :=
  pipeline_deterministic _ _ _ _ _ _ _ _ _ _ rfl rfl rfl rfl rfl

/-- Claim C5: every run of the simplex loop either terminates at a state
where no non-basic arc has negative reduced cost (the optimality condition,
`enteringArc = none`) and only then returns a flow, or raises
`NonConvergenceError`; in particular exhausting the iteration cap
immediately surrenders the current flow only as the error's diagnostic
payload, never as an `.ok` result. -/
theorem iteration_cap_error (allowed : Cell → Bool) (cost : Nat → Nat → ℚ)
    (n m fuel : Nat) (f : FlowList) :
    ((∃ fF, solveLoop allowed cost n m fuel f = .ok fF ∧
        enteringArc allowed cost (flowKeys fF) n m = none) ∨
     (∃ fdiag, solveLoop allowed cost n m fuel f = .error (.nonConvergence fdiag))) ∧
    solveLoop allowed cost n m 0 f = .error (.nonConvergence f) := by
  refine ⟨?_, rfl⟩
  induction fuel generalizing f with
  | zero => exact Or.inr ⟨f, rfl⟩
  | succ fuel ih =>
    cases he : enteringArc allowed cost (flowKeys f) n m with
    | none => exact Or.inl ⟨f, by rw [solveLoop, he], he⟩
    | some e =>
      have hstep : solveLoop allowed cost n m (fuel + 1) f
          = match findCycle (flowKeys f) e with
            | none => solveLoop allowed cost n m fuel f
            | some cyc => solveLoop allowed cost n m fuel (pivot f e cyc) := by
        rw [solveLoop, he]
      cases hc : findCycle (flowKeys f) e with
      | none =>
        rw [hc] at hstep
        rcases ih f with ⟨fF, h1, h2⟩ | ⟨fd, h1⟩
        · exact Or.inl ⟨fF, by rw [hstep]; exact h1, h2⟩
        · exact Or.inr ⟨fd, by rw [hstep]; exact h1⟩
      | some cyc =>
        rw [hc] at hstep
        rcases ih (pivot f e cyc) with ⟨fF, h1, h2⟩ | ⟨fd, h1⟩
        · exact Or.inl ⟨fF, by rw [hstep]; exact h1, h2⟩
        · exact Or.inr ⟨fd, by rw [hstep]; exact h1⟩

/-! ### Flow-list accounting lemmas -/

theorem projSum_nil (pi : Cell → Nat) (r : Nat) : projSum pi [] r = 0 := rfl

theorem projSum_cons (pi : Cell → Nat) (e : Cell × ℚ) (f : FlowList) (r : Nat) :
    projSum pi (e :: f) r = (if pi e.1 = r then e.2 else 0) + projSum pi f r := by
  simp [projSum]

theorem projSum_append (pi : Cell → Nat) (f g : FlowList) (r : Nat) :
    projSum pi (f ++ g) r = projSum pi f r + projSum pi g r := by
  simp [projSum]

theorem projSum_single (pi : Cell → Nat) (e : Cell × ℚ) (r : Nat) :
    projSum pi [e] r = if pi e.1 = r then e.2 else 0 := by
  simp [projSum]

theorem flowKeys_cons (e : Cell × ℚ) (f : FlowList) :
    flowKeys (e :: f) = e.1 :: flowKeys f := rfl

theorem exists_val_of_key_mem (f : FlowList) (k : Cell) (h : k ∈ flowKeys f) :
    ∃ v, (k, v) ∈ f := by
  rcases List.mem_map.mp h with ⟨⟨a, b⟩, he, hk⟩
  exact ⟨b, by rwa [show (k, b) = (a, b) by rw [← hk]]⟩

theorem flowAt_of_mem (f : FlowList) (k : Cell) (v : ℚ)
    (hnd : (flowKeys f).Nodup) (hm : (k, v) ∈ f) : flowAt f k = v := by
  induction f with
  | nil => simp at hm
  | cons e rest ih =>
    rw [flowKeys_cons, List.nodup_cons] at hnd
    rcases List.mem_cons.mp hm with h | h
    · rw [← h]
      simp [flowAt, List.find?]
    · have hne : ¬ e.1 = k := by
        intro hEq
        exact hnd.1 (hEq ▸ List.mem_map_of_mem _ h)
      rw [flowAt, List.find?]
      simp only [hne, decide_False]
      exact ih hnd.2 h

theorem val_nonneg_of_key (f : FlowList) (k : Cell)
    (h0 : ∀ e ∈ f, 0 ≤ e.2) (h : k ∈ flowKeys f) : 0 ≤ flowAt f k := by
  induction f with
  | nil => simp [flowKeys] at h
  | cons e rest ih =>
    rw [flowAt, List.find?]
    by_cases hk : e.1 = k
    · simp only [hk, decide_True]
      exact h0 e (by simp)
    · simp only [hk, decide_False]
      rw [flowKeys_cons, List.mem_cons] at h
      exact ih (fun x hx => h0 x (List.mem_cons_of_mem e hx))
        (h.resolve_left (fun hEq => hk hEq.symm))

theorem sum_map_add_q {α : Type} (l : List α) (g h : α → ℚ) :
    (l.map (fun x => g x + h x)).sum = (l.map g).sum + (l.map h).sum := by
  induction l with
  | nil => simp
  | cons a rest ih =>
    simp only [List.map_cons, List.sum_cons, ih]
    ring

theorem sum_map_mul_q {α : Type} (l : List α) (t : ℚ) (g : α → ℚ)
    (P : α → Prop) [DecidablePred P] :
    (l.map (fun x => if P x then t * g x else 0)).sum
      = t * (l.map (fun x => if P x then g x else 0)).sum := by
  induction l with
  | nil => simp
  | cons a rest ih =>
    simp only [List.map_cons, List.sum_cons, ih]
    by_cases h : P a
    · simp only [h, if_true]
      ring
    · simp only [h, if_false]
      ring

theorem sum_map_add_sub_q {α : Type} (l : List α) (g h k : α → ℚ) :
    (l.map (fun x => g x + (h x - k x))).sum
      = (l.map g).sum + ((l.map h).sum - (l.map k).sum) := by
  induction l with
  | nil => simp
  | cons a rest ih =>
    simp only [List.map_cons, List.sum_cons, ih]
    ring

theorem sum_single_key (f : FlowList) (c : Cell) (P : Cell → Prop)
    [DecidablePred P] (habs : c ∉ flowKeys f) :
    (f.map (fun e => if P e.1 then (if c = e.1 then (1 : ℚ) else 0) else 0)).sum
      = 0 := by
  induction f with
  | nil => simp
  | cons e rest ih =>
    rw [flowKeys_cons, List.mem_cons] at habs
    push_neg at habs
    have h1 : ¬ c = e.1 := habs.1
    simp only [List.map_cons, List.sum_cons, h1, if_false, ite_self,
      ih habs.2, add_zero]

theorem sum_single_key_mem (f : FlowList) (c : Cell) (P : Cell → Prop)
    [DecidablePred P] (hnd : (flowKeys f).Nodup) (hmem : c ∈ flowKeys f) :
    (f.map (fun e => if P e.1 then (if c = e.1 then (1 : ℚ) else 0) else 0)).sum
      = if P c then 1 else 0 := by
  induction f with
  | nil => simp [flowKeys] at hmem
  | cons e rest ih =>
    rw [flowKeys_cons, List.nodup_cons] at hnd
    rw [flowKeys_cons, List.mem_cons] at hmem
    simp only [List.map_cons, List.sum_cons]
    by_cases hc : c = e.1
    · have habs : c ∉ flowKeys rest := hc ▸ hnd.1
      rw [sum_single_key rest c P habs, hc]
      simp
    · have hmem' : c ∈ flowKeys rest := hmem.resolve_left hc
      rw [ih hnd.2 hmem']
      simp [hc]

theorem sum_count_filter (f : FlowList) (cells : List Cell) (P : Cell → Prop)
    [DecidablePred P] (hnd : (flowKeys f).Nodup)
    (hsub : ∀ c ∈ cells, c ∈ flowKeys f) :
    (f.map (fun e => if P e.1 then (cells.count e.1 : ℚ) else 0)).sum
      = ((cells.filter (fun c => decide (P c))).length : ℚ) := by
  induction cells with
  | nil => simp
  | cons c cs ih =>
    have hs : ∀ x ∈ cs, x ∈ flowKeys f :=
      fun x hx => hsub x (List.mem_cons_of_mem c hx)
    have hcf : c ∈ flowKeys f := hsub c (by simp)
    have hfn : (fun e : Cell × ℚ => if P e.1 then (((c :: cs).count e.1 : Nat) : ℚ) else 0)
        = fun e : Cell × ℚ =>
            (if P e.1 then ((cs.count e.1 : Nat) : ℚ) else 0)
            + (if P e.1 then (if c = e.1 then (1 : ℚ) else 0) else 0) := by
      funext e
      by_cases hP : P e.1
      · simp only [hP, if_true]
        rw [List.count_cons]
        by_cases hc : c = e.1
        · simp [hc]
        · have hb : ¬ (e.1 == c) = true := by
            simp only [beq_iff_eq]
            exact fun hEq => hc hEq.symm
          simp [hb, hc]
      · simp [hP]
    rw [hfn, sum_map_add_q, ih hs, sum_single_key_mem f c P hnd hcf,
      List.filter_cons]
    by_cases hP : P c
    · simp [hP]
    · simp [hP]

theorem minusCells_map_fst (cyc : List Cell) :
    (minusCells cyc).map Prod.fst = cyc.map Prod.fst := by
  rw [minusCells]
  exact List.map_fst_zip _ _ (by simp)

theorem minusCells_map_snd (cyc : List Cell) :
    (minusCells cyc).map Prod.snd = (cyc.map Prod.snd).rotate 1 := by
  rw [minusCells]
  exact List.map_snd_zip _ _ (by simp)

theorem minusCells_length (cyc : List Cell) :
    (minusCells cyc).length = cyc.length := by
  simp [minusCells]

theorem proj_filter_len_eq (pi : Cell → Nat) (cyc : List Cell) (r : Nat)
    (hmap : List.Perm ((minusCells cyc).map pi) (cyc.map pi)) :
    ((minusCells cyc).filter (fun c => decide (pi c = r))).length
      = (cyc.filter (fun c => decide (pi c = r))).length := by
  have h1 : ∀ (l : List Cell),
      (l.filter (fun c => decide (pi c = r))).length
        = (l.map pi).countP (fun a => decide (a = r)) := by
    intro l
    rw [← List.countP_eq_length_filter, List.countP_map]
    rfl
  rw [h1, h1]
  exact hmap.countP_eq _

theorem projSum_applyCycle (pi : Cell → Nat) (f : FlowList) (cyc : List Cell)
    (t : ℚ) (r : Nat) (hnd : (flowKeys f).Nodup)
    (hplus : ∀ c ∈ cyc, c ∈ flowKeys f)
    (hminus : ∀ c ∈ minusCells cyc, c ∈ flowKeys f)
    (hmap : List.Perm ((minusCells cyc).map pi) (cyc.map pi)) :
    projSum pi (applyCycle cyc t f) r = projSum pi f r := by
  rw [applyCycle, projSum, List.map_map]
  have hfun : ((fun e : Cell × ℚ => if pi e.1 = r then e.2 else 0) ∘
      (fun e : Cell × ℚ => (e.1, e.2 + t * cycleCoeff cyc e.1)))
      = fun e : Cell × ℚ =>
          (if pi e.1 = r then e.2 else 0)
          + ((if pi e.1 = r then t * (cyc.count e.1 : ℚ) else 0)
             - (if pi e.1 = r then t * (((minusCells cyc).count e.1 : Nat) : ℚ) else 0)) := by
    funext e
    by_cases h : pi e.1 = r
    · simp only [Function.comp_apply, h, if_true, cycleCoeff]
      ring
    · simp only [Function.comp_apply, h, if_false]
      ring
  rw [hfun, sum_map_add_sub_q]
  have hmul : ∀ (cells : List Cell),
      (f.map (fun e : Cell × ℚ => if pi e.1 = r then t * ((cells.count e.1 : Nat) : ℚ) else 0)).sum
        = t * (f.map (fun e : Cell × ℚ => if pi e.1 = r then ((cells.count e.1 : Nat) : ℚ) else 0)).sum :=
    fun cells =>
      sum_map_mul_q f t (fun e => ((cells.count e.1 : Nat) : ℚ)) (fun e => pi e.1 = r)
  rw [hmul cyc, hmul (minusCells cyc),
    sum_count_filter f cyc (fun c => pi c = r) hnd hplus,
    sum_count_filter f (minusCells cyc) (fun c => pi c = r) hnd hminus,
    proj_filter_len_eq pi cyc r hmap, projSum]
  ring

theorem rowSum_applyCycle (f : FlowList) (cyc : List Cell) (t : ℚ) (r : Nat)
    (hnd : (flowKeys f).Nodup)
    (hplus : ∀ c ∈ cyc, c ∈ flowKeys f)
    (hminus : ∀ c ∈ minusCells cyc, c ∈ flowKeys f) :
    rowSum (applyCycle cyc t f) r = rowSum f r :=
  projSum_applyCycle Prod.fst f cyc t r hnd hplus hminus
    (by rw [minusCells_map_fst])

theorem colSum_applyCycle (f : FlowList) (cyc : List Cell) (t : ℚ) (c : Nat)
    (hnd : (flowKeys f).Nodup)
    (hplus : ∀ x ∈ cyc, x ∈ flowKeys f)
    (hminus : ∀ x ∈ minusCells cyc, x ∈ flowKeys f) :
    colSum (applyCycle cyc t f) c = colSum f c :=
  projSum_applyCycle Prod.snd f cyc t c hnd hplus hminus
    (by rw [minusCells_map_snd]; exact List.rotate_perm _ _)

/-! ### Greedy initialization lemmas -/

theorem prodCells_mem (n m : Nat) (c : Cell) :
    c ∈ prodCells n m ↔ c.1 < n ∧ c.2 < m := by
  have key : ∀ (L : List Nat),
      (c ∈ L.foldr (fun i acc => ((List.range m).map (fun j => (i, j))) ++ acc) []
        ↔ c.1 ∈ L ∧ c.2 < m) := by
    intro L
    induction L with
    | nil => simp
    | cons i rest ih =>
      simp only [List.foldr_cons, List.mem_append, ih, List.mem_map,
        List.mem_range, List.mem_cons]
      constructor
      · rintro (⟨j, hj, rfl⟩ | ⟨h1, h2⟩)
        · exact ⟨Or.inl rfl, hj⟩
        · exact ⟨Or.inr h1, h2⟩
      · rintro ⟨h1 | h1, h2⟩
        · exact Or.inl ⟨c.2, h2, by rw [← h1]⟩
        · exact Or.inr ⟨h1, h2⟩
  rw [prodCells, key, List.mem_range]

theorem pickMinCost_cons (cost : Nat → Nat → ℚ) (a : Cell) (rest : List Cell) :
    pickMinCost cost (a :: rest) =
      match pickMinCost cost rest with
      | none => some a
      | some b => if cost b.1 b.2 < cost a.1 a.2 then some b else some a := rfl

theorem pickMinCost_none_iff (cost : Nat → Nat → ℚ) (l : List Cell) :
    pickMinCost cost l = none ↔ l = [] := by
  cases l with
  | nil => simp [pickMinCost]
  | cons a rest =>
    rw [pickMinCost_cons]
    cases hr : pickMinCost cost rest with
    | none => simp
    | some b =>
      by_cases hc : cost b.1 b.2 < cost a.1 a.2
      · show (if cost b.1 b.2 < cost a.1 a.2 then some b else some a) = none ↔ _
        rw [if_pos hc]
        simp
      · show (if cost b.1 b.2 < cost a.1 a.2 then some b else some a) = none ↔ _
        rw [if_neg hc]
        simp

theorem pickMinCost_mem (cost : Nat → Nat → ℚ) (l : List Cell) (c : Cell)
    (h : pickMinCost cost l = some c) : c ∈ l := by
  induction l generalizing c with
  | nil => simp [pickMinCost] at h
  | cons a rest ih =>
    cases hr : pickMinCost cost rest with
    | none =>
      have h' : pickMinCost cost (a :: rest) = some a := by
        rw [pickMinCost_cons, hr]
      rw [h'] at h
      obtain rfl : a = c := by simpa using h
      exact List.mem_cons.mpr (Or.inl rfl)
    | some b =>
      by_cases hc : cost b.1 b.2 < cost a.1 a.2
      · have h' : pickMinCost cost (a :: rest) = some b := by
          rw [pickMinCost_cons, hr]
          show (if cost b.1 b.2 < cost a.1 a.2 then some b else some a) = some b
          rw [if_pos hc]
        rw [h'] at h
        obtain rfl : b = c := by simpa using h
        exact List.mem_cons_of_mem a (ih b hr)
      · have h' : pickMinCost cost (a :: rest) = some a := by
          rw [pickMinCost_cons, hr]
          show (if cost b.1 b.2 < cost a.1 a.2 then some b else some a) = some a
          rw [if_neg hc]
        rw [h'] at h
        obtain rfl : a = c := by simpa using h
        exact List.mem_cons.mpr (Or.inl rfl)

theorem pickMinCost_min (cost : Nat → Nat → ℚ) (l : List Cell) (c : Cell)
    (h : pickMinCost cost l = some c) :
    ∀ x ∈ l, cost c.1 c.2 ≤ cost x.1 x.2 := by
  induction l generalizing c with
  | nil => simp [pickMinCost] at h
  | cons a rest ih =>
    cases hr : pickMinCost cost rest with
    | none =>
      have h' : pickMinCost cost (a :: rest) = some a := by
        rw [pickMinCost_cons, hr]
      rw [h'] at h
      obtain rfl : a = c := by simpa using h
      obtain rfl : rest = [] := (pickMinCost_none_iff cost rest).mp hr
      intro x hx
      obtain rfl : x = a := by simpa using hx
      exact le_refl _
    | some b =>
      by_cases hc : cost b.1 b.2 < cost a.1 a.2
      · have h' : pickMinCost cost (a :: rest) = some b := by
          rw [pickMinCost_cons, hr]
          show (if cost b.1 b.2 < cost a.1 a.2 then some b else some a) = some b
          rw [if_pos hc]
        rw [h'] at h
        obtain rfl : b = c := by simpa using h
        intro x hx
        rcases List.mem_cons.mp hx with rfl | hx
        · exact le_of_lt hc
        · exact ih b hr x hx
      · have h' : pickMinCost cost (a :: rest) = some a := by
          rw [pickMinCost_cons, hr]
          show (if cost b.1 b.2 < cost a.1 a.2 then some b else some a) = some a
          rw [if_neg hc]
        rw [h'] at h
        obtain rfl : a = c := by simpa using h
        intro x hx
        rcases List.mem_cons.mp hx with rfl | hx
        · exact le_refl _
        · exact le_trans (not_lt.mp hc) (ih b hr x hx)

theorem greedyCandidates_spec (allowed : Cell → Bool) (s d : List ℚ) (c : Cell) :
    c ∈ greedyCandidates allowed s d ↔
      c.1 < s.length ∧ c.2 < d.length ∧ allowed c = true ∧
      0 < s.getD c.1 0 ∧ 0 < d.getD c.2 0 := by
  rw [greedyCandidates, List.mem_filter, prodCells_mem]
  constructor
  · rintro ⟨⟨h1, h2⟩, h3⟩
    simp only [Bool.and_eq_true, decide_eq_true_eq] at h3
    exact ⟨h1, h2, h3.1.1, h3.1.2, h3.2⟩
  · rintro ⟨h1, h2, h3, h4, h5⟩
    refine ⟨⟨h1, h2⟩, ?_⟩
    simp only [Bool.and_eq_true, decide_eq_true_eq]
    exact ⟨⟨h3, h4⟩, h5⟩

theorem getD_set_self_q (l : List ℚ) (i : Nat) (v : ℚ) (h : i < l.length) :
    (l.set i v).getD i 0 = v := by
  simp [List.getD_eq_getElem?_getD, List.getElem?_set_self h]

theorem getD_set_ne_q (l : List ℚ) (i r : Nat) (v : ℚ) (h : ¬ i = r) :
    (l.set i v).getD r 0 = l.getD r 0 := by
  simp [List.getD_eq_getElem?_getD, List.getElem?_set_ne h]

theorem all_zero_getD (s : List ℚ)
    (h : s.all (fun v => decide (v = 0)) = true) (r : Nat) : s.getD r 0 = 0 := by
  by_cases hr : r < s.length
  · have := List.all_eq_true.mp h (s.getD r 0)
      (by rw [List.getD_eq_getElem?_getD, List.getElem?_eq_getElem hr]; exact List.getElem_mem hr)
    simpa using this
  · rw [List.getD_eq_getElem?_getD, List.getElem?_eq_none (by omega)]
    rfl

theorem greedyLoop_ok_sums (allowed : Cell → Bool) (cost : Nat → Nat → ℚ)
    (fuel : Nat) (s d : List ℚ) (acc flow : FlowList)
    (h : greedyLoop allowed cost fuel s d acc = .ok flow) :
    (∀ r, rowSum flow r = rowSum acc r + s.getD r 0) ∧
    (∀ c, colSum flow c = colSum acc c + d.getD c 0) := by
  induction fuel generalizing s d acc with
  | zero => exact absurd h (by rw [greedyLoop]; simp)
  | succ fuel ih =>
    rw [greedyLoop] at h
    cases hp : pickMinCost cost (greedyCandidates allowed s d) with
    | none =>
      rw [hp] at h
      cases hz : (s.all fun v => decide (v = 0)) && (d.all fun v => decide (v = 0)) with
      | false => rw [hz] at h; simp at h
      | true =>
        rw [hz] at h
        obtain rfl : acc = flow := by simpa using h
        rw [Bool.and_eq_true] at hz
        constructor
        · intro r
          rw [all_zero_getD s hz.1 r, add_zero]
        · intro c
          rw [all_zero_getD d hz.2 c, add_zero]
    | some c =>
      rw [hp] at h
      have hc := (greedyCandidates_spec allowed s d c).mp (pickMinCost_mem cost _ c hp)
      obtain ⟨hc1, hc2, _, hc4, hc5⟩ := hc
      obtain ⟨h1, h2⟩ := ih _ _ _ h
      have hrowS : ∀ r, rowSum [(c, min (s.getD c.1 0) (d.getD c.2 0))] r
          = if c.1 = r then min (s.getD c.1 0) (d.getD c.2 0) else 0 := by
        intro r
        rw [rowSum, projSum_single]
      have hcolS : ∀ co, colSum [(c, min (s.getD c.1 0) (d.getD c.2 0))] co
          = if c.2 = co then min (s.getD c.1 0) (d.getD c.2 0) else 0 := by
        intro co
        rw [colSum, projSum_single]
      constructor
      · intro r
        rw [h1 r, rowSum, projSum_append, ← rowSum, ← rowSum, hrowS r]
        by_cases hr : c.1 = r
        · rw [if_pos hr, ← hr, getD_set_self_q s c.1 _ hc1]
          ring
        · rw [if_neg hr, getD_set_ne_q s c.1 r _ hr]
          ring
      · intro co
        rw [h2 co, colSum, projSum_append, ← colSum, ← colSum, hcolS co]
        by_cases hco : c.2 = co
        · rw [if_pos hco, ← hco, getD_set_self_q d c.2 _ hc2]
          ring
        · rw [if_neg hco, getD_set_ne_q d c.2 co _ hco]
          ring

theorem greedyLoop_ok_pos (allowed : Cell → Bool) (cost : Nat → Nat → ℚ)
    (fuel : Nat) (s d : List ℚ) (acc flow : FlowList)
    (h : greedyLoop allowed cost fuel s d acc = .ok flow)
    (hacc : ∀ e ∈ acc, 0 < e.2) :
    ∀ e ∈ flow, 0 < e.2 := by
  induction fuel generalizing s d acc with
  | zero => exact absurd h (by rw [greedyLoop]; simp)
  | succ fuel ih =>
    rw [greedyLoop] at h
    cases hp : pickMinCost cost (greedyCandidates allowed s d) with
    | none =>
      rw [hp] at h
      cases hz : (s.all fun v => decide (v = 0)) && (d.all fun v => decide (v = 0)) with
      | false => rw [hz] at h; simp at h
      | true =>
        rw [hz] at h
        obtain rfl : acc = flow := by simpa using h
        exact hacc
    | some c =>
      rw [hp] at h
      have hc := (greedyCandidates_spec allowed s d c).mp (pickMinCost_mem cost _ c hp)
      obtain ⟨_, _, _, hc4, hc5⟩ := hc
      refine ih _ _ _ h ?_
      intro e he
      rcases List.mem_append.mp he with he | he
      · exact hacc e he
      · have : e = (c, min (s.getD c.1 0) (d.getD c.2 0)) := by simpa using he
        rw [this]
        exact lt_min hc4 hc5

theorem greedyLoop_ok_nodup (allowed : Cell → Bool) (cost : Nat → Nat → ℚ)
    (fuel : Nat) (s d : List ℚ) (acc flow : FlowList)
    (h : greedyLoop allowed cost fuel s d acc = .ok flow)
    (hacc : (flowKeys acc).Nodup)
    (hdead : ∀ e ∈ acc, s.getD e.1.1 0 = 0 ∨ d.getD e.1.2 0 = 0) :
    (flowKeys flow).Nodup := by
  induction fuel generalizing s d acc with
  | zero => exact absurd h (by rw [greedyLoop]; simp)
  | succ fuel ih =>
    rw [greedyLoop] at h
    cases hp : pickMinCost cost (greedyCandidates allowed s d) with
    | none =>
      rw [hp] at h
      cases hz : (s.all fun v => decide (v = 0)) && (d.all fun v => decide (v = 0)) with
      | false => rw [hz] at h; simp at h
      | true =>
        rw [hz] at h
        obtain rfl : acc = flow := by simpa using h
        exact hacc
    | some c =>
      rw [hp] at h
      have hc := (greedyCandidates_spec allowed s d c).mp (pickMinCost_mem cost _ c hp)
      obtain ⟨hc1, hc2, _, hc4, hc5⟩ := hc
      refine ih _ _ _ h ?_ ?_
      · have hnotin : c ∉ flowKeys acc := by
          intro hk
          obtain ⟨v, hv⟩ := exists_val_of_key_mem acc c hk
          rcases hdead (c, v) hv with hz | hz
          · rw [hz] at hc4; exact absurd hc4 (by norm_num)
          · rw [hz] at hc5; exact absurd hc5 (by norm_num)
        rw [flowKeys, List.map_append]
        simp only [List.map_cons, List.map_nil]
        rw [List.nodup_append]
        exact ⟨hacc, List.nodup_singleton c, by
          intro a ha hb
          rw [List.mem_singleton] at hb
          rw [hb] at ha
          exact hnotin ha⟩
      · intro e he
        rcases List.mem_append.mp he with he | he
        · rcases hdead e he with hz | hz
          · left
            have hne : ¬ c.1 = e.1.1 := by
              intro hEq
              rw [← hEq] at hz
              rw [hz] at hc4
              exact absurd hc4 (by norm_num)
            rw [getD_set_ne_q s c.1 e.1.1 _ hne]
            exact hz
          · right
            have hne : ¬ c.2 = e.1.2 := by
              intro hEq
              rw [← hEq] at hz
              rw [hz] at hc5
              exact absurd hc5 (by norm_num)
            rw [getD_set_ne_q d c.2 e.1.2 _ hne]
            exact hz
        · have he2 : e = (c, min (s.getD c.1 0) (d.getD c.2 0)) := by simpa using he
          rw [he2]
          rcases le_total (s.getD c.1 0) (d.getD c.2 0) with hmin | hmin
          · left
            rw [getD_set_self_q s c.1 _ hc1, min_eq_left hmin]
            ring
          · right
            rw [getD_set_self_q d c.2 _ hc2, min_eq_right hmin]
            ring

theorem countP_set_q (p : ℚ → Bool) (l : List ℚ) (i : Nat) (v : ℚ)
    (h : i < l.length) :
    (l.set i v).countP p + (if p (l.getD i 0) then 1 else 0)
      = l.countP p + (if p v then 1 else 0) := by
  induction l generalizing i with
  | nil => simp at h
  | cons a rest ih =>
    cases i with
    | zero =>
      simp only [List.set_cons_zero, List.countP_cons, List.getD_cons_zero]
      ring
    | succ i =>
      simp only [List.set_cons_succ, List.countP_cons, List.getD_cons_succ]
      have hih := ih i (by simpa using h)
      omega

theorem posCount_pos_of_getD (l : List ℚ) (i : Nat) (h1 : i < l.length)
    (h2 : 0 < l.getD i 0) : 1 ≤ posCount l := by
  rw [posCount]
  have hm : l.getD i 0 ∈ l := by
    rw [List.getD_eq_getElem?_getD, List.getElem?_eq_getElem h1]
    exact List.getElem_mem h1
  exact Nat.succ_le_of_lt
    (List.countP_pos_iff.mpr ⟨l.getD i 0, hm, decide_eq_true h2⟩)

theorem greedyLoop_ok_len (allowed : Cell → Bool) (cost : Nat → Nat → ℚ)
    (fuel : Nat) (s d : List ℚ) (acc flow : FlowList)
    (h : greedyLoop allowed cost fuel s d acc = .ok flow) :
    flow.length ≤ acc.length + (posCount s + posCount d - 1) := by
  induction fuel generalizing s d acc with
  | zero => exact absurd h (by rw [greedyLoop]; simp)
  | succ fuel ih =>
    rw [greedyLoop] at h
    cases hp : pickMinCost cost (greedyCandidates allowed s d) with
    | none =>
      rw [hp] at h
      cases hz : (s.all fun v => decide (v = 0)) && (d.all fun v => decide (v = 0)) with
      | false => rw [hz] at h; simp at h
      | true =>
        rw [hz] at h
        obtain rfl : acc = flow := by simpa using h
        exact Nat.le_add_right _ _
    | some c =>
      rw [hp] at h
      have hc := (greedyCandidates_spec allowed s d c).mp (pickMinCost_mem cost _ c hp)
      obtain ⟨hc1, hc2, _, hc4, hc5⟩ := hc
      have hbound := ih _ _ _ h
      rw [List.length_append, List.length_cons, List.length_nil] at hbound
      have hs' := countP_set_q (fun v => decide (0 < v)) s c.1
        (s.getD c.1 0 - min (s.getD c.1 0) (d.getD c.2 0)) hc1
      have hd' := countP_set_q (fun v => decide (0 < v)) d c.2
        (d.getD c.2 0 - min (s.getD c.1 0) (d.getD c.2 0)) hc2
      simp only [decide_eq_true_eq] at hs' hd'
      rw [if_pos hc4] at hs'
      rw [if_pos hc5] at hd'
      have hposS : 1 ≤ posCount s := posCount_pos_of_getD s c.1 hc1 hc4
      have hposD : 1 ≤ posCount d := posCount_pos_of_getD d c.2 hc2 hc5
      rcases lt_trichotomy (s.getD c.1 0) (d.getD c.2 0) with hlt | heq | hgt
      · have hmin : min (s.getD c.1 0) (d.getD c.2 0) = s.getD c.1 0 :=
          min_eq_left (le_of_lt hlt)
        rw [hmin] at hs' hd' hbound
        rw [if_neg (by norm_num : ¬ (0:ℚ) < s.getD c.1 0 - s.getD c.1 0)] at hs'
        rw [if_pos (by linarith : (0:ℚ) < d.getD c.2 0 - s.getD c.1 0)] at hd'
        have hposD' : 1 ≤ posCount (d.set c.2 (d.getD c.2 0 - s.getD c.1 0)) := by
          refine posCount_pos_of_getD _ c.2 (by simpa using hc2) ?_
          rw [getD_set_self_q d c.2 _ hc2]
          linarith
        simp only [posCount] at hbound hposS hposD hposD' ⊢
        omega
      · rw [← heq, min_self] at hs' hd' hbound
        rw [if_neg (by norm_num : ¬ (0:ℚ) < s.getD c.1 0 - s.getD c.1 0)] at hs'
        rw [if_neg (by norm_num : ¬ (0:ℚ) < s.getD c.1 0 - s.getD c.1 0)] at hd'
        simp only [posCount] at hbound hposS hposD ⊢
        omega
      · have hmin : min (s.getD c.1 0) (d.getD c.2 0) = d.getD c.2 0 :=
          min_eq_right (le_of_lt hgt)
        rw [hmin] at hs' hd' hbound
        rw [if_neg (by norm_num : ¬ (0:ℚ) < d.getD c.2 0 - d.getD c.2 0)] at hd'
        rw [if_pos (by linarith : (0:ℚ) < s.getD c.1 0 - d.getD c.2 0)] at hs'
        have hposS' : 1 ≤ posCount (s.set c.1 (s.getD c.1 0 - d.getD c.2 0)) := by
          refine posCount_pos_of_getD _ c.1 (by simpa using hc1) ?_
          rw [getD_set_self_q s c.1 _ hc1]
          linarith
        simp only [posCount] at hbound hposS hposD hposS' ⊢
        omega

/-! ### Cycle finder lemmas -/

theorem findCycleAux_spec (basis : List Cell) (j0 : Nat) (fuel : Nat) :
    ∀ (r : Nat) (visR visC : List Nat) (cells : List Cell),
    findCycleAux basis j0 fuel r visR visC = some cells →
    (∀ x ∈ cells, x ∈ basis) ∧
    (∀ a ∈ cells.map Prod.fst, a ∉ visR) ∧ (cells.map Prod.fst).Nodup ∧
    (∀ b ∈ cells.map Prod.snd, b ∉ visC) ∧ (cells.map Prod.snd).Nodup ∧
    MinusChain basis j0 r cells := by
  induction fuel with
  | zero =>
    intro r visR visC cells h
    rw [findCycleAux] at h
    exact absurd h (by simp)
  | succ fuel ih =>
    intro r visR visC cells h
    rw [findCycleAux] at h
    by_cases hclose : (r, j0) ∈ basis
    · rw [if_pos (decide_eq_true hclose)] at h
      obtain rfl : ([] : List Cell) = cells := by simpa using h
      refine ⟨by simp, by simp, by simp, by simp, by simp, ?_⟩
      exact hclose
    · rw [if_neg (by simpa using hclose)] at h
      obtain ⟨mc, hmcMem, hmcEq⟩ := List.exists_of_findSome?_eq_some h
      by_cases hmcCond : mc.1 = r ∧ mc.2 ∉ visC
      · rw [if_pos hmcCond] at hmcEq
        obtain ⟨pc, hpcMem, hpcEq⟩ := List.exists_of_findSome?_eq_some hmcEq
        by_cases hpcCond : pc.2 = mc.2 ∧ pc.1 ∉ visR
        · rw [if_pos hpcCond] at hpcEq
          cases hrec : findCycleAux basis j0 fuel pc.1 (pc.1 :: visR) (mc.2 :: visC) with
          | none => rw [hrec] at hpcEq; simp at hpcEq
          | some rest =>
            rw [hrec] at hpcEq
            obtain rfl : (pc.1, mc.2) :: rest = cells := by simpa using hpcEq
            obtain ⟨ih1, ih2, ih3, ih4, ih5, ih6⟩ :=
              ih pc.1 (pc.1 :: visR) (mc.2 :: visC) rest hrec
            have hhd : ((pc.1, mc.2) : Cell) = pc := by rw [← hpcCond.1]
            have hmceq : ((r, mc.2) : Cell) = mc := by rw [← hmcCond.1]
            refine ⟨?_, ?_, ?_, ?_, ?_, ?_⟩
            · intro x hx
              rcases List.mem_cons.mp hx with rfl | hx
              · rw [hhd]; exact hpcMem
              · exact ih1 x hx
            · intro a ha
              rw [List.map_cons] at ha
              rcases List.mem_cons.mp ha with rfl | ha2
              · exact hpcCond.2
              · exact fun hin => ih2 a ha2 (List.mem_cons_of_mem _ hin)
            · rw [List.map_cons, List.nodup_cons]
              refine ⟨?_, ih3⟩
              intro hin
              exact ih2 pc.1 hin (by simp)
            · intro b hb
              rw [List.map_cons] at hb
              rcases List.mem_cons.mp hb with rfl | hb2
              · exact hmcCond.2
              · exact fun hin => ih4 b hb2 (List.mem_cons_of_mem _ hin)
            · rw [List.map_cons, List.nodup_cons]
              refine ⟨?_, ih5⟩
              intro hin
              exact ih4 mc.2 hin (by simp)
            · exact ⟨hmceq ▸ hmcMem, ih6⟩
        · rw [if_neg hpcCond] at hpcEq
          simp at hpcEq
      · rw [if_neg hmcCond] at hmcEq
        simp at hmcEq

theorem minusCells_singleton (a : Cell) :
    minusCells [a] = [a] := by
  simp [minusCells, List.rotate_singleton]

theorem minusCells_cons_cons (a b : Cell) (l : List Cell) :
    minusCells (a :: b :: l) = (a.1, b.2) :: minusCells ((b.1, a.2) :: l) := by
  show (a.1 :: b.1 :: l.map Prod.fst).zip ((a.2 :: b.2 :: l.map Prod.snd).rotate 1)
    = (a.1, b.2) :: (b.1 :: l.map Prod.fst).zip ((a.2 :: l.map Prod.snd).rotate 1)
  rw [List.rotate_cons_succ, List.rotate_zero, List.rotate_cons_succ, List.rotate_zero]
  rfl

theorem minusCells_subset_of_chain (basis : List Cell) (j0 r : Nat)
    (cells : List Cell) (h : MinusChain basis j0 r cells) :
    ∀ x ∈ minusCells ((r, j0) :: cells), x ∈ basis := by
  induction cells generalizing r with
  | nil =>
    intro x hx
    rw [minusCells_singleton] at hx
    obtain rfl : x = ((r, j0) : Cell) := by simpa using hx
    exact h
  | cons a rest ih =>
    intro x hx
    rw [show ((r, j0) : Cell) :: a :: rest = ((r, j0) : Cell) :: (a.1, a.2) :: rest by simp,
      minusCells_cons_cons] at hx
    rcases List.mem_cons.mp hx with rfl | hx
    · exact h.1
    · exact ih a.1 h.2 x hx

theorem nodup_getElem?_inj {α : Type} (l : List α) (hnd : l.Nodup)
    (i j : Nat) (a : α) (hi : l[i]? = some a) (hj : l[j]? = some a) : i = j := by
  obtain ⟨hi1, hi2⟩ := List.getElem?_eq_some_iff.mp hi
  obtain ⟨hj1, hj2⟩ := List.getElem?_eq_some_iff.mp hj
  exact (List.Nodup.getElem_inj_iff hnd).mp (by rw [hi2, hj2])

theorem cyc_disjoint_minus (cyc : List Cell) (h2 : 2 ≤ cyc.length)
    (hf : (cyc.map Prod.fst).Nodup) (hs : (cyc.map Prod.snd).Nodup) :
    ∀ x ∈ cyc, x ∉ minusCells cyc := by
  intro x hx hmx
  obtain ⟨t, ht, hxt⟩ := List.mem_iff_getElem.mp hx
  obtain ⟨u, hu, hxu⟩ := List.mem_iff_getElem.mp hmx
  have hulen : u < cyc.length := by
    rw [minusCells_length] at hu
    exact hu
  have hxu2 : (minusCells cyc)[u]? = some x := by
    rw [List.getElem?_eq_getElem hu, hxu]
  have hxt2 : cyc[t]? = some x := by
    rw [List.getElem?_eq_getElem ht, hxt]
  have hfstm : (cyc.map Prod.fst)[u]? = some x.1 := by
    rw [← minusCells_map_fst, List.getElem?_map, hxu2]
    rfl
  have hsndm : ((cyc.map Prod.snd).rotate 1)[u]? = some x.2 := by
    rw [← minusCells_map_snd, List.getElem?_map, hxu2]
    rfl
  have hfstc : (cyc.map Prod.fst)[t]? = some x.1 := by
    rw [List.getElem?_map, hxt2]
    rfl
  have hsndc : (cyc.map Prod.snd)[t]? = some x.2 := by
    rw [List.getElem?_map, hxt2]
    rfl
  have hut : u = t :=
    nodup_getElem?_inj _ hf u t x.1 hfstm hfstc
  subst hut
  have hrotlen : u < (cyc.map Prod.snd).length := by
    rw [List.length_map]
    exact hulen
  rw [List.getElem?_rotate hrotlen] at hsndm
  rw [List.length_map] at hsndm
  have hidx : (u + 1) % cyc.length = u :=
    nodup_getElem?_inj _ hs _ u x.2 hsndm hsndc
  by_cases hcase : u + 1 = cyc.length
  · rw [hcase, Nat.mod_self] at hidx
    omega
  · rw [Nat.mod_eq_of_lt (by omega)] at hidx
    omega

theorem findCycle_spec (basis : List Cell) (e : Cell) (cyc : List Cell)
    (h : findCycle basis e = some cyc) (he : e ∉ basis) :
    (∀ x ∈ cyc.tail, x ∈ basis) ∧
    (∀ x ∈ minusCells cyc, x ∈ basis) ∧
    cyc.Nodup ∧ (minusCells cyc).Nodup ∧
    (∀ x ∈ cyc, x ∉ minusCells cyc) ∧
    cyc ≠ [] ∧ cyc.head? = some e := by
  rw [findCycle] at h
  cases haux : findCycleAux basis e.2 (basis.length + 1) e.1 [e.1] [e.2] with
  | none => rw [haux] at h; simp at h
  | some cells =>
    rw [haux] at h
    obtain rfl : e :: cells = cyc := by simpa using h
    obtain ⟨h1, h2, h3, h4, h5, h6⟩ :=
      findCycleAux_spec basis e.2 (basis.length + 1) e.1 [e.1] [e.2] cells haux
    have hne : cells ≠ [] := by
      intro hnil
      rw [hnil] at h6
      exact he (by simpa using h6)
    have hfst : ((e :: cells).map Prod.fst).Nodup := by
      rw [List.map_cons, List.nodup_cons]
      exact ⟨fun hin => h2 e.1 hin (by simp), h3⟩
    have hsnd : ((e :: cells).map Prod.snd).Nodup := by
      rw [List.map_cons, List.nodup_cons]
      exact ⟨fun hin => h4 e.2 hin (by simp), h5⟩
    have hlen2 : 2 ≤ (e :: cells).length := by
      cases cells with
      | nil => exact absurd rfl hne
      | cons a l => simp
    have hminus : ∀ x ∈ minusCells (e :: cells), x ∈ basis := by
      have := minusCells_subset_of_chain basis e.2 e.1 cells h6
      intro x hx
      exact this x (by
        rw [show ((e.1, e.2) : Cell) :: cells = e :: cells by simp]
        exact hx)
    refine ⟨by simpa using h1, hminus, ?_, ?_, ?_, by simp, by simp⟩
    · exact hfst.of_map
    · have : ((minusCells (e :: cells)).map Prod.fst).Nodup := by
        rw [minusCells_map_fst]
        exact hfst
      exact this.of_map
    · exact cyc_disjoint_minus _ hlen2 hfst hsnd

theorem count_eq_zero_cell (l : List Cell) (k : Cell) (h : k ∉ l) :
    l.count k = 0 := List.count_eq_zero.mpr h

theorem count_eq_one_cell (l : List Cell) (k : Cell) (h : l.Nodup)
    (hk : k ∈ l) : l.count k = 1 := by
  induction l with
  | nil => simp at hk
  | cons a rest ih =>
    rw [List.nodup_cons] at h
    rcases List.mem_cons.mp hk with rfl | hk2
    · rw [List.count_cons_self, count_eq_zero_cell rest k h.1]
    · have hne : k ≠ a := by
        intro hEq
        rw [hEq] at hk2
        exact h.1 hk2
      rw [List.count_cons_of_ne hne, ih h.2 hk2]

theorem cycleCoeff_plus (cyc : List Cell) (k : Cell)
    (hnd : cyc.Nodup) (hdisj : ∀ x ∈ cyc, x ∉ minusCells cyc)
    (hk : k ∈ cyc) : cycleCoeff cyc k = 1 := by
  rw [cycleCoeff, count_eq_one_cell cyc k hnd hk,
    count_eq_zero_cell (minusCells cyc) k (hdisj k hk)]
  norm_num

theorem cycleCoeff_minus (cyc : List Cell) (k : Cell)
    (hndm : (minusCells cyc).Nodup) (hdisj : ∀ x ∈ cyc, x ∉ minusCells cyc)
    (hk : k ∈ minusCells cyc) : cycleCoeff cyc k = -1 := by
  have hnotc : k ∉ cyc := fun hc => hdisj k hc hk
  rw [cycleCoeff, count_eq_zero_cell cyc k hnotc,
    count_eq_one_cell (minusCells cyc) k hndm hk]
  norm_num

theorem cycleCoeff_zero (cyc : List Cell) (k : Cell)
    (h1 : k ∉ cyc) (h2 : k ∉ minusCells cyc) : cycleCoeff cyc k = 0 := by
  rw [cycleCoeff, count_eq_zero_cell cyc k h1,
    count_eq_zero_cell (minusCells cyc) k h2]
  norm_num

/-! ### Pivot lemmas -/

theorem selectLeaving_cons (f : FlowList) (c : Cell) (rest : List Cell) :
    selectLeaving f (c :: rest) =
      match selectLeaving f rest with
      | none => some (c, flowAt f c)
      | some (b, tb) =>
          if flowAt f c < tb ∨
             (flowAt f c = tb ∧ (c.1 < b.1 ∨ (c.1 = b.1 ∧ c.2 < b.2))) then
            some (c, flowAt f c)
          else some (b, tb) := rfl

theorem selectLeaving_spec (f : FlowList) (l : List Cell) (lv : Cell) (t : ℚ)
    (h : selectLeaving f l = some (lv, t)) :
    lv ∈ l ∧ t = flowAt f lv ∧ ∀ x ∈ l, t ≤ flowAt f x := by
  induction l generalizing lv t with
  | nil => simp [selectLeaving] at h
  | cons c rest ih =>
    cases hr : selectLeaving f rest with
    | none =>
      have h2 : selectLeaving f (c :: rest) = some (c, flowAt f c) := by
        rw [selectLeaving_cons, hr]
      rw [h2] at h
      have hc : c = lv ∧ flowAt f c = t := by
        constructor
        · exact congrArg Prod.fst (Option.some_injective _ h)
        · exact congrArg Prod.snd (Option.some_injective _ h)
      obtain ⟨rfl, rfl⟩ := hc
      have hrest : rest = [] := by
        cases rest with
        | nil => rfl
        | cons y ys =>
          exfalso
          cases h3 : selectLeaving f ys with
          | none =>
            have : selectLeaving f (y :: ys) = some (y, flowAt f y) := by
              rw [selectLeaving_cons, h3]
            rw [this] at hr
            simp at hr
          | some bt =>
            have : selectLeaving f (y :: ys) =
                if flowAt f y < bt.2 ∨
                   (flowAt f y = bt.2 ∧ (y.1 < bt.1.1 ∨ (y.1 = bt.1.1 ∧ y.2 < bt.1.2))) then
                  some (y, flowAt f y)
                else some (bt.1, bt.2) := by
              rw [selectLeaving_cons, h3]
            rw [this] at hr
            by_cases hcond : flowAt f y < bt.2 ∨
                (flowAt f y = bt.2 ∧ (y.1 < bt.1.1 ∨ (y.1 = bt.1.1 ∧ y.2 < bt.1.2)))
            · rw [if_pos hcond] at hr
              simp at hr
            · rw [if_neg hcond] at hr
              simp at hr
      subst hrest
      refine ⟨by simp, rfl, ?_⟩
      intro x hx
      obtain rfl : x = c := by simpa using hx
      exact le_refl _
    | some bt =>
      have h2 : selectLeaving f (c :: rest) =
          if flowAt f c < bt.2 ∨
             (flowAt f c = bt.2 ∧ (c.1 < bt.1.1 ∨ (c.1 = bt.1.1 ∧ c.2 < bt.1.2))) then
            some (c, flowAt f c)
          else some (bt.1, bt.2) := by
        rw [selectLeaving_cons, hr]
      rw [h2] at h
      obtain ⟨hbt1, hbt2, hbt3⟩ := ih bt.1 bt.2 (by rw [hr])
      by_cases hcond : flowAt f c < bt.2 ∨
          (flowAt f c = bt.2 ∧ (c.1 < bt.1.1 ∨ (c.1 = bt.1.1 ∧ c.2 < bt.1.2)))
      · rw [if_pos hcond] at h
        have hc : c = lv ∧ flowAt f c = t := by
          constructor
          · exact congrArg Prod.fst (Option.some_injective _ h)
          · exact congrArg Prod.snd (Option.some_injective _ h)
        obtain ⟨rfl, rfl⟩ := hc
        refine ⟨by simp, rfl, ?_⟩
        intro x hx
        rcases List.mem_cons.mp hx with rfl | hx
        · exact le_refl _
        · have hle : flowAt f c ≤ bt.2 := by
            rcases hcond with h4 | h4
            · exact le_of_lt h4
            · exact le_of_eq h4.1
          exact le_trans hle (hbt3 x hx)
      · rw [if_neg hcond] at h
        have hc : bt.1 = lv ∧ bt.2 = t := by
          constructor
          · exact congrArg Prod.fst (Option.some_injective _ h)
          · exact congrArg Prod.snd (Option.some_injective _ h)
        obtain ⟨rfl, rfl⟩ := hc
        refine ⟨List.mem_cons_of_mem c hbt1, hbt2, ?_⟩
        intro x hx
        rcases List.mem_cons.mp hx with rfl | hx
        · push_neg at hcond
          exact hcond.1
        · exact hbt3 x hx

theorem flowKeys_applyCycle (cyc : List Cell) (t : ℚ) (f : FlowList) :
    flowKeys (applyCycle cyc t f) = flowKeys f := by
  rw [applyCycle, flowKeys, flowKeys, List.map_map]
  rfl

theorem val_unique (f : FlowList) (k : Cell) (v1 v2 : ℚ)
    (hnd : (flowKeys f).Nodup) (h1 : (k, v1) ∈ f) (h2 : (k, v2) ∈ f) :
    v1 = v2 := by
  have e1 := flowAt_of_mem f k v1 hnd h1
  have e2 := flowAt_of_mem f k v2 hnd h2
  rw [← e1, ← e2]

theorem pivot_spec (f : FlowList) (e : Cell) (cyc : List Cell)
    (hnd : (flowKeys f).Nodup) (he : e ∉ flowKeys f)
    (hfc : findCycle (flowKeys f) e = some cyc) :
    (flowKeys (pivot f e cyc)).Nodup ∧
    (∀ r, rowSum (pivot f e cyc) r = rowSum f r) ∧
    (∀ c, colSum (pivot f e cyc) c = colSum f c) ∧
    ((∀ x ∈ f, 0 ≤ x.2) → ∀ x ∈ pivot f e cyc, 0 ≤ x.2) ∧
    (pivot f e cyc).length ≤ f.length := by
  obtain ⟨htail, hminus, hcynd, hmnd, hdisj, hcne, hhead⟩ :=
    findCycle_spec (flowKeys f) e cyc hfc he
  have hnd1 : (flowKeys ((e, 0) :: f)).Nodup := by
    rw [flowKeys_cons, List.nodup_cons]
    exact ⟨he, hnd⟩
  have hplus1 : ∀ x ∈ cyc, x ∈ flowKeys ((e, 0) :: f) := by
    intro x hx
    cases cyc with
    | nil => simp at hx
    | cons hd tl =>
      obtain rfl : hd = e := by simpa using hhead
      rw [flowKeys_cons]
      rcases List.mem_cons.mp hx with rfl | hx
      · exact List.mem_cons.mpr (Or.inl rfl)
      · exact List.mem_cons_of_mem _ (htail x (by simpa using hx))
  have hminus1 : ∀ x ∈ minusCells cyc, x ∈ flowKeys ((e, 0) :: f) := by
    intro x hx
    rw [flowKeys_cons]
    exact List.mem_cons_of_mem _ (hminus x hx)
  rw [pivot]
  cases hsel : selectLeaving ((e, 0) :: f) (minusCells cyc) with
  | none =>
    exact ⟨hnd, fun r => rfl, fun c => rfl, fun hp => hp, le_refl _⟩
  | some lvt =>
    obtain ⟨hlv1, hlv2, hlv3⟩ :=
      selectLeaving_spec ((e, 0) :: f) (minusCells cyc) lvt.1 lvt.2 (by rw [hsel])
    have hlvkey : lvt.1 ∈ flowKeys f := hminus lvt.1 hlv1
    obtain ⟨w, hw⟩ := exists_val_of_key_mem f lvt.1 hlvkey
    have hwf1 : (lvt.1, w) ∈ (e, 0) :: f := List.mem_cons_of_mem _ hw
    have htw : lvt.2 = w := by
      rw [hlv2, flowAt_of_mem _ _ _ hnd1 hwf1]
    have hcoefflv : cycleCoeff cyc lvt.1 = -1 :=
      cycleCoeff_minus cyc lvt.1 hmnd hdisj hlv1
    have hzero : ((lvt.1, (0 : ℚ)) : Cell × ℚ)
        ∈ applyCycle cyc lvt.2 ((e, 0) :: f) := by
      rw [applyCycle]
      have : ((lvt.1, w + lvt.2 * cycleCoeff cyc lvt.1) : Cell × ℚ)
          ∈ ((e, 0) :: f).map
            (fun x => (x.1, x.2 + lvt.2 * cycleCoeff cyc x.1)) :=
        List.mem_map_of_mem _ hwf1
      have hval : w + lvt.2 * (-1 : ℚ) = 0 := by
        rw [htw]
        ring
      rw [hcoefflv, hval] at this
      exact this
    obtain ⟨a, l₁, l₂, hal1, ha, hsplit, herase⟩ :=
      @List.exists_of_eraseP _ (fun x : Cell × ℚ => decide (x.1 = lvt.1)) _ _
        hzero (by simp)
    have hndA : (flowKeys (applyCycle cyc lvt.2 ((e, 0) :: f))).Nodup := by
      rw [flowKeys_applyCycle]
      exact hnd1
    have haval : a = (lvt.1, (0 : ℚ)) := by
      have hak : a.1 = lvt.1 := by simpa using ha
      have hamem : (a.1, a.2) ∈ applyCycle cyc lvt.2 ((e, 0) :: f) := by
        rw [hsplit]
        exact List.mem_append.mpr (Or.inr (List.mem_cons.mpr (Or.inl (by simp))))
      have : a.2 = 0 := by
        refine val_unique _ lvt.1 a.2 0 hndA ?_ ?_
        · rw [← hak]
          exact hamem
        · exact hzero
      rw [Prod.ext_iff]
      exact ⟨hak, this⟩
    have hlenA : (applyCycle cyc lvt.2 ((e, 0) :: f)).length = f.length + 1 := by
      rw [applyCycle, List.length_map, List.length_cons]
    have hsub : List.Sublist
        ((applyCycle cyc lvt.2 ((e, 0) :: f)).eraseP
          (fun x => decide (x.1 = lvt.1)))
        (applyCycle cyc lvt.2 ((e, 0) :: f)) :=
      List.eraseP_sublist _
    refine ⟨?_, ?_, ?_, ?_, ?_⟩
    · exact List.Nodup.sublist (hsub.map Prod.fst) hndA
    · intro r
      have hA : rowSum (applyCycle cyc lvt.2 ((e, 0) :: f)) r
          = rowSum ((e, 0) :: f) r :=
        rowSum_applyCycle _ cyc lvt.2 r hnd1 hplus1 hminus1
      have hB : rowSum ((e, 0) :: f) r = rowSum f r := by
        show projSum Prod.fst ((e, 0) :: f) r = projSum Prod.fst f r
        rw [projSum_cons]
        simp
      have hC : rowSum (applyCycle cyc lvt.2 ((e, 0) :: f)) r
          = rowSum ((applyCycle cyc lvt.2 ((e, 0) :: f)).eraseP
              (fun x => decide (x.1 = lvt.1))) r := by
        show projSum Prod.fst (applyCycle cyc lvt.2 ((e, 0) :: f)) r
          = projSum Prod.fst ((applyCycle cyc lvt.2 ((e, 0) :: f)).eraseP
              (fun x => decide (x.1 = lvt.1))) r
        rw [herase, hsplit, haval, projSum_append, projSum_append, projSum_cons]
        simp
      rw [← hC, hA, hB]
    · intro c
      have hA : colSum (applyCycle cyc lvt.2 ((e, 0) :: f)) c
          = colSum ((e, 0) :: f) c :=
        colSum_applyCycle _ cyc lvt.2 c hnd1 hplus1 hminus1
      have hB : colSum ((e, 0) :: f) c = colSum f c := by
        show projSum Prod.snd ((e, 0) :: f) c = projSum Prod.snd f c
        rw [projSum_cons]
        simp
      have hC : colSum (applyCycle cyc lvt.2 ((e, 0) :: f)) c
          = colSum ((applyCycle cyc lvt.2 ((e, 0) :: f)).eraseP
              (fun x => decide (x.1 = lvt.1))) c := by
        show projSum Prod.snd (applyCycle cyc lvt.2 ((e, 0) :: f)) c
          = projSum Prod.snd ((applyCycle cyc lvt.2 ((e, 0) :: f)).eraseP
              (fun x => decide (x.1 = lvt.1))) c
        rw [herase, hsplit, haval, projSum_append, projSum_append, projSum_cons]
        simp
      rw [← hC, hA, hB]
    · intro hp x hx
      have hx2 : x ∈ applyCycle cyc lvt.2 ((e, 0) :: f) := hsub.mem hx
      rw [applyCycle] at hx2
      obtain ⟨y, hy, hyx⟩ := List.mem_map.mp hx2
      have hy2 : 0 ≤ y.2 := by
        rcases List.mem_cons.mp hy with rfl | hy
        · exact le_refl 0
        · exact hp y hy
      have htheta : 0 ≤ lvt.2 := by
        rw [htw]
        exact hp (lvt.1, w) hw
      rw [← hyx]
      by_cases hyc : y.1 ∈ cyc
      · rw [cycleCoeff_plus cyc y.1 hcynd hdisj hyc]
        have : (0:ℚ) ≤ y.2 + lvt.2 := by linarith
        simpa using this
      · by_cases hym : y.1 ∈ minusCells cyc
        · rw [cycleCoeff_minus cyc y.1 hmnd hdisj hym]
          have hbound : lvt.2 ≤ flowAt ((e, 0) :: f) y.1 := hlv3 y.1 hym
          have hfa : flowAt ((e, 0) :: f) y.1 = y.2 := by
            refine flowAt_of_mem _ _ _ hnd1 ?_
            have : (y.1, y.2) = y := rfl
            rw [this]
            exact hy
          rw [hfa] at hbound
          have : (0:ℚ) ≤ y.2 + lvt.2 * (-1) := by linarith
          simpa using this
        · rw [cycleCoeff_zero cyc y.1 hyc hym]
          simpa using hy2
    · have : ((applyCycle cyc lvt.2 ((e, 0) :: f)).eraseP
          (fun x => decide (x.1 = lvt.1))).length
          = (applyCycle cyc lvt.2 ((e, 0) :: f)).length - 1 := by
        rw [herase, hsplit]
        simp
      rw [this, hlenA]
      omega

/-! ### Solve-loop invariants -/

theorem pickMostNegative_cons (cost : Nat → Nat → ℚ) (u v : Nat → ℚ)
    (c : Cell) (rest : List Cell) :
    pickMostNegative cost u v (c :: rest) =
      match pickMostNegative cost u v rest with
      | none => some c
      | some b =>
          if reducedCost cost u v b < reducedCost cost u v c then some b
          else some c := rfl

theorem pickMostNegative_mem (cost : Nat → Nat → ℚ) (u v : Nat → ℚ)
    (l : List Cell) (c : Cell)
    (h : pickMostNegative cost u v l = some c) : c ∈ l := by
  induction l generalizing c with
  | nil => simp [pickMostNegative] at h
  | cons a rest ih =>
    cases hr : pickMostNegative cost u v rest with
    | none =>
      have h2 : pickMostNegative cost u v (a :: rest) = some a := by
        rw [pickMostNegative_cons, hr]
      rw [h2] at h
      obtain rfl : a = c := by simpa using h
      exact List.mem_cons.mpr (Or.inl rfl)
    | some b =>
      by_cases hc : reducedCost cost u v b < reducedCost cost u v a
      · have h2 : pickMostNegative cost u v (a :: rest) = some b := by
          rw [pickMostNegative_cons, hr]
          show (if reducedCost cost u v b < reducedCost cost u v a
              then some b else some a) = some b
          rw [if_pos hc]
        rw [h2] at h
        obtain rfl : b = c := by simpa using h
        exact List.mem_cons_of_mem a (ih b hr)
      · have h2 : pickMostNegative cost u v (a :: rest) = some a := by
          rw [pickMostNegative_cons, hr]
          show (if reducedCost cost u v b < reducedCost cost u v a
              then some b else some a) = some a
          rw [if_neg hc]
        rw [h2] at h
        obtain rfl : a = c := by simpa using h
        exact List.mem_cons.mpr (Or.inl rfl)

theorem enteringArc_not_mem (allowed : Cell → Bool) (cost : Nat → Nat → ℚ)
    (keys : List Cell) (n m : Nat) (e : Cell)
    (h : enteringArc allowed cost keys n m = some e) : e ∉ keys := by
  simp only [enteringArc] at h
  have hm := pickMostNegative_mem _ _ _ _ _ h
  rw [enteringCandidates, List.mem_filter] at hm
  have h2 := hm.2
  simp only [Bool.and_eq_true, decide_eq_true_eq] at h2
  exact h2.1.2

theorem solveLoop_ok_inv (allowed : Cell → Bool) (cost : Nat → Nat → ℚ)
    (n m : Nat) (S D : Nat → ℚ) (L : Nat) (fuel : Nat) (f fF : FlowList)
    (h : solveLoop allowed cost n m fuel f = .ok fF)
    (hnd : (flowKeys f).Nodup) (hpos : ∀ x ∈ f, 0 ≤ x.2)
    (hrow : ∀ r, rowSum f r = S r) (hcol : ∀ c, colSum f c = D c)
    (hlen : f.length ≤ L) :
    (flowKeys fF).Nodup ∧ (∀ x ∈ fF, 0 ≤ x.2) ∧
    (∀ r, rowSum fF r = S r) ∧ (∀ c, colSum fF c = D c) ∧ fF.length ≤ L := by
  induction fuel generalizing f with
  | zero => rw [solveLoop] at h; simp at h
  | succ fuel ih =>
    cases he : enteringArc allowed cost (flowKeys f) n m with
    | none =>
      have h2 : solveLoop allowed cost n m (fuel + 1) f = .ok f := by
        rw [solveLoop, he]
      rw [h2] at h
      obtain rfl : f = fF := by simpa using h
      exact ⟨hnd, hpos, hrow, hcol, hlen⟩
    | some e =>
      have hstep : solveLoop allowed cost n m (fuel + 1) f
          = match findCycle (flowKeys f) e with
            | none => solveLoop allowed cost n m fuel f
            | some cyc => solveLoop allowed cost n m fuel (pivot f e cyc) := by
        rw [solveLoop, he]
      cases hc : findCycle (flowKeys f) e with
      | none =>
        rw [hc] at hstep
        rw [hstep] at h
        exact ih f h hnd hpos hrow hcol hlen
      | some cyc =>
        rw [hc] at hstep
        rw [hstep] at h
        have hem : e ∉ flowKeys f := enteringArc_not_mem allowed cost _ n m e he
        obtain ⟨p1, p2, p3, p4, p5⟩ := pivot_spec f e cyc hnd hem hc
        exact ih (pivot f e cyc) h p1 (p4 hpos)
          (fun r => (p2 r).trans (hrow r)) (fun c => (p3 c).trans (hcol c))
          (le_trans p5 hlen)

/-! ### Plan assembly lemmas -/

theorem projSum_assemblePlan (pi : Cell → Nat) (f : FlowList)
    (hpos : ∀ x ∈ f, 0 ≤ x.2) (r : Nat) :
    projSum pi (assemblePlan f) r = projSum pi f r := by
  induction f with
  | nil => rfl
  | cons a rest ih =>
    have hrest : ∀ x ∈ rest, 0 ≤ x.2 :=
      fun x hx => hpos x (List.mem_cons_of_mem a hx)
    rw [assemblePlan, List.filter_cons]
    by_cases h0 : 0 < a.2
    · rw [if_pos (by simpa using h0), projSum_cons, projSum_cons]
      rw [show List.filter (fun e => decide (0 < e.2)) rest = assemblePlan rest from rfl,
        ih hrest]
    · rw [if_neg (by simpa using h0)]
      have ha0 : a.2 = 0 := le_antisymm (not_lt.mp h0) (hpos a (by simp))
      rw [show List.filter (fun e => decide (0 < e.2)) rest = assemblePlan rest from rfl,
        ih hrest, projSum_cons, ha0]
      simp

theorem assemblePlan_pos (f : FlowList) : ∀ x ∈ assemblePlan f, 0 < x.2 := by
  intro x hx
  rw [assemblePlan, List.mem_filter] at hx
  simpa using hx.2

theorem assemblePlan_len (f : FlowList) :
    (assemblePlan f).length ≤ f.length :=
  List.length_filter_le _ _

/-! ### Histogram mass lemmas -/

theorem sparseHist_ok_shape (samples : List (List ℚ)) (w : List ℚ)
    (H : SparseHistogram) (h : sparseHist samples w = .ok H) :
    samples ≠ [] ∧
    H = ((samples.foldl
        (fun acc x => bump acc (binIndex w x) (1 / (samples.length : ℚ))) []).map
          (fun e => ⟨e.1, binCenter w e.1, e.2⟩)) := by
  cases samples with
  | nil => simp [sparseHist] at h
  | cons x rest =>
    refine ⟨by simp, ?_⟩
    simp only [sparseHist, Except.ok.injEq] at h
    exact h.symm

theorem sparseHist_masses_sum (samples : List (List ℚ)) (w : List ℚ)
    (H : SparseHistogram) (h : sparseHist samples w = .ok H) :
    (histMasses H).sum = 1 := by
  obtain ⟨hne, rfl⟩ := sparseHist_ok_shape samples w H h
  rw [histMasses, List.map_map]
  have hfn : (Bin.mass ∘ fun e : List Int × ℚ =>
      (⟨e.1, binCenter w e.1, e.2⟩ : Bin)) = (fun e : List Int × ℚ => e.2) := rfl
  rw [hfn, histFold_snd_sum]
  have hlen : ((samples.length : ℚ)) ≠ 0 := by
    cases samples with
    | nil => exact absurd rfl hne
    | cons x rest =>
      rw [List.length_cons]
      push_cast
      positivity
  rw [List.map_nil, List.sum_nil]
  field_simp

theorem sparseHist_mass_pos (samples : List (List ℚ)) (w : List ℚ)
    (H : SparseHistogram) (h : sparseHist samples w = .ok H) :
    ∀ b ∈ H, 0 < b.mass := by
  obtain ⟨hne, rfl⟩ := sparseHist_ok_shape samples w H h
  intro b hb
  obtain ⟨e, he, hbe⟩ := List.mem_map.mp hb
  have hunit : 0 < 1 / (samples.length : ℚ) := by
    cases samples with
    | nil => exact absurd rfl hne
    | cons x rest =>
      rw [List.length_cons]
      push_cast
      positivity
  have := histFold_pos samples w (1 / (samples.length : ℚ)) [] hunit (by simp) e he
  rw [← hbe]
  exact this

theorem histMasses_getD (H : SparseHistogram) (r : Nat) :
    (histMasses H).getD r 0 = histMass H r := by
  rw [histMasses, histMass, List.getD_eq_getElem?_getD, List.getElem?_map]

/-! ### Whole-solver invariants -/

theorem runCore_inv (allowed : Cell → Bool) (cost : Nat → Nat → ℚ)
    (n m fuel1 fuel2 : Nat) (sups dems : List ℚ)
    (plan : TransportPlan) (c : ℚ)
    (h : (greedyLoop allowed cost fuel1 sups dems []).bind (fun f0 =>
          (solveLoop allowed cost n m fuel2 f0).map
            (fun fF => (assemblePlan fF, planCost cost (assemblePlan fF))))
        = .ok (plan, c)) :
    (∀ r, rowSum plan r = sups.getD r 0) ∧
    (∀ co, colSum plan co = dems.getD co 0) ∧
    (∀ x ∈ plan, 0 < x.2) ∧
    plan.length ≤ posCount sups + posCount dems - 1 := by
  cases hg : greedyLoop allowed cost fuel1 sups dems [] with
  | error err => rw [hg] at h; simp [Except.bind] at h
  | ok f0 =>
    rw [hg] at h
    simp only [Except.bind] at h
    cases hs : solveLoop allowed cost n m fuel2 f0 with
    | error err => rw [hs] at h; simp [Except.map] at h
    | ok fF =>
      rw [hs] at h
      simp only [Except.map, Except.ok.injEq, Prod.mk.injEq] at h
      obtain ⟨hplan, hcost⟩ := h
      obtain ⟨g1, g2⟩ := greedyLoop_ok_sums allowed cost fuel1 sups dems [] f0 hg
      have gpos : ∀ x ∈ f0, 0 < x.2 :=
        greedyLoop_ok_pos allowed cost fuel1 sups dems [] f0 hg (by simp)
      have gnodup : (flowKeys f0).Nodup :=
        greedyLoop_ok_nodup allowed cost fuel1 sups dems [] f0 hg
          (by simp [flowKeys]) (by simp)
      have glen : f0.length ≤ posCount sups + posCount dems - 1 := by
        have := greedyLoop_ok_len allowed cost fuel1 sups dems [] f0 hg
        simpa using this
      have grow : ∀ r, rowSum f0 r = sups.getD r 0 := by
        intro r
        rw [g1 r, rowSum, projSum_nil, zero_add]
      have gcol : ∀ co, colSum f0 co = dems.getD co 0 := by
        intro co
        rw [g2 co, colSum, projSum_nil, zero_add]
      obtain ⟨s1, s2, s3, s4, s5⟩ :=
        solveLoop_ok_inv allowed cost n m (fun r => sups.getD r 0)
          (fun co => dems.getD co 0) (posCount sups + posCount dems - 1)
          fuel2 f0 fF hs gnodup (fun x hx => le_of_lt (gpos x hx)) grow gcol glen
      refine ⟨?_, ?_, ?_, ?_⟩
      · intro r
        rw [← hplan, rowSum, projSum_assemblePlan Prod.fst fF s2 r, ← rowSum]
        exact s3 r
      · intro co
        rw [← hplan, colSum, projSum_assemblePlan Prod.snd fF s2 co, ← colSum]
        exact s4 co
      · intro x hx
        rw [← hplan] at hx
        exact assemblePlan_pos fF x hx
      · rw [← hplan]
        exact le_trans (assemblePlan_len fF) s5

theorem otSolve_ok_inv (cfg : Config) (A B : SparseHistogram)
    (plan : TransportPlan) (c : ℚ)
    (h : otSolve cfg A B = .ok (plan, c))
    (hsA : (histMasses A).sum = 1) (hsB : (histMasses B).sum = 1) :
    (∀ r, rowSum plan r = histMass A r) ∧
    (∀ co, colSum plan co = histMass B co) ∧
    (∀ x ∈ plan, 0 < x.2) ∧
    plan.length ≤ A.length + B.length - 1 := by
  simp only [otSolve] at h
  by_cases hempty : A.length = 0 ∨ B.length = 0
  · rw [if_pos hempty] at h
    simp at h
  · rw [if_neg hempty] at h
    have hfinish : ∀ (hcore :
        (greedyLoop (allowedArcs cfg (fun i j => cfg.cost (histCenter A i) (histCenter B j)) A.length B.length)
            (fun i j => cfg.cost (histCenter A i) (histCenter B j))
            (A.length + B.length + 1) (histMasses A) (histMasses B) []).bind (fun f0 =>
          (solveLoop (allowedArcs cfg (fun i j => cfg.cost (histCenter A i) (histCenter B j)) A.length B.length)
              (fun i j => cfg.cost (histCenter A i) (histCenter B j))
              A.length B.length cfg.maxIterations f0).map
            (fun fF => (assemblePlan fF,
              planCost (fun i j => cfg.cost (histCenter A i) (histCenter B j)) (assemblePlan fF))))
          = .ok (plan, c)),
        (∀ r, rowSum plan r = histMass A r) ∧
        (∀ co, colSum plan co = histMass B co) ∧
        (∀ x ∈ plan, 0 < x.2) ∧
        plan.length ≤ A.length + B.length - 1 := by
      intro hcore
      obtain ⟨r1, r2, r3, r4⟩ := runCore_inv _ _ _ _ _ _ _ _ _ _ hcore
      refine ⟨?_, ?_, r3, ?_⟩
      · intro r
        rw [r1 r, histMasses_getD]
      · intro co
        rw [r2 co, histMasses_getD]
      · refine le_trans r4 ?_
        have h1 : posCount (histMasses A) ≤ A.length := by
          rw [posCount]
          exact le_trans (List.countP_le_length _) (by rw [histMasses, List.length_map])
        have h2 : posCount (histMasses B) ≤ B.length := by
          rw [posCount]
          exact le_trans (List.countP_le_length _) (by rw [histMasses, List.length_map])
        omega
    cases hpol : cfg.massPolicy with
    | failOnMismatch =>
      rw [hpol] at h
      by_cases heps : |(histMasses A).sum - (histMasses B).sum| ≤ cfg.eps
      · rw [if_pos heps] at h
        exact hfinish h
      · rw [if_neg heps] at h
        simp [Except.bind] at h
    | rescale =>
      rw [hpol] at h
      have hde : (histMasses B).map
          (fun v => v * ((histMasses A).sum / (histMasses B).sum)) = histMasses B := by
        rw [hsA, hsB]
        norm_num
      rw [hde] at h
      exact hfinish h

/-- Claim C1: mass conservation of the solver output.  For every transport
plan produced by the solver from two constructed sparse histograms, every
source bin's outgoing plan mass equals its histogram mass and every sink
bin's incoming plan mass equals its histogram mass.  The model computes in
exact rational arithmetic, so the equality is exact and in particular holds
up to any configured tolerance. -/
theorem mass_conservation (cfg : Config) (sA sB : List (List ℚ))
    (wA wB : List ℚ) (A B : SparseHistogram) (plan : TransportPlan) (c : ℚ)
    (hA : sparseHist sA wA = .ok A) (hB : sparseHist sB wB = .ok B)
    (h : otSolve cfg A B = .ok (plan, c)) :
    (∀ i, rowSum plan i = histMass A i) ∧
    (∀ j, colSum plan j = histMass B j) :=
  let m := otSolve_ok_inv cfg A B plan c h
    (sparseHist_masses_sum sA wA A hA) (sparseHist_masses_sum sB wB B hB)
  ⟨m.1, m.2.1⟩

/-- Claim C6: transport-plan sparsity.  Every plan entry is strictly
positive (zero entries are dropped at assembly), and the number of entries
is at most (number of source bins + number of sink bins - 1). -/
theorem plan_sparsity (cfg : Config) (sA sB : List (List ℚ))
    (wA wB : List ℚ) (A B : SparseHistogram) (plan : TransportPlan) (c : ℚ)
    (hA : sparseHist sA wA = .ok A) (hB : sparseHist sB wB = .ok B)
    (h : otSolve cfg A B = .ok (plan, c)) :
    (∀ x ∈ plan, 0 < x.2) ∧ plan.length ≤ A.length + B.length - 1 :=
  let m := otSolve_ok_inv cfg A B plan c h
    (sparseHist_masses_sum sA wA A hA) (sparseHist_masses_sum sB wB B hB)
  ⟨m.2.2.1, m.2.2.2⟩

/-- Concrete evaluation of the histogram construction on a single sample. -/
theorem sparseHist_unit_run :
    sparseHist [[0]] [1] = .ok [⟨[0], [1/2], 1⟩] := by
  simp [sparseHist, bump, binIndex, binCenter]

/-- Concrete evaluation of the whole solver on the one-bin instance. -/
theorem otSolve_unit_run :
    otSolve ⟨GraphMode.dense, 0, sqDist, MassPolicy.failOnMismatch, 1, 0⟩
        [⟨[0], [1/2], 1⟩] [⟨[0], [1/2], 1⟩]
      = .ok ([((0, 0), 1)], 0) := by
  norm_num [otSolve, histMasses, histMass, histCenter, greedyLoop,
    greedyCandidates, pickMinCost, prodCells, allowedArcs, solveLoop,
    enteringArc, potentials, potSeedLoop, potRounds, potRound, potKey,
    enteringCandidates, pickMostNegative, reducedCost, sqDist, flowKeys,
    assemblePlan, planCost, Except.bind, Except.map]

/-- Witness for claim C1 on the one-bin instance: the single source bin's
plan outflow equals its histogram mass. -/
theorem mass_conservation_witness :
    rowSum [((0, 0), (1 : ℚ))] 0 = histMass [⟨[0], [1/2], 1⟩] 0 :=
  (mass_conservation ⟨GraphMode.dense, 0, sqDist, MassPolicy.failOnMismatch, 1, 0⟩
    [[0]] [[0]] [1] [1] [⟨[0], [1/2], 1⟩] [⟨[0], [1/2], 1⟩]
    [((0, 0), 1)] 0 sparseHist_unit_run sparseHist_unit_run otSolve_unit_run).1 0

/-- Witness for claim C6 on the one-bin instance: one entry, positive, and
1 ≤ 1 + 1 - 1. -/
theorem plan_sparsity_witness :
    ([((0, 0), (1 : ℚ))] : TransportPlan).length
      ≤ ([⟨[0], [1/2], 1⟩] : SparseHistogram).length
        + ([⟨[0], [1/2], 1⟩] : SparseHistogram).length - 1 :=
  (plan_sparsity ⟨GraphMode.dense, 0, sqDist, MassPolicy.failOnMismatch, 1, 0⟩
    [[0]] [[0]] [1] [1] [⟨[0], [1/2], 1⟩] [⟨[0], [1/2], 1⟩]
    [((0, 0), 1)] 0 sparseHist_unit_run sparseHist_unit_run otSolve_unit_run).2

/-! ### The identity case: geometric groundwork -/

theorem sqDist_self (x : List ℚ) : sqDist x x = 0 := by
  induction x with
  | nil => rfl
  | cons a xs ih =>
    simp only [sqDist, List.zipWith_cons_cons, List.sum_cons]
    simp only [sqDist] at ih
    rw [ih]
    ring

theorem sqDist_nonneg (x y : List ℚ) : 0 ≤ sqDist x y := by
  induction x generalizing y with
  | nil => simp [sqDist]
  | cons a xs ih =>
    cases y with
    | nil => simp [sqDist]
    | cons b ys =>
      simp only [sqDist, List.zipWith_cons_cons, List.sum_cons]
      have h1 : 0 ≤ (a - b) ^ 2 := sq_nonneg _
      have h2 := ih ys
      simp only [sqDist] at h2
      linarith

theorem sqDist_pos (x y : List ℚ) (hlen : x.length = y.length)
    (hne : ¬ x = y) : 0 < sqDist x y := by
  induction x generalizing y with
  | nil =>
    cases y with
    | nil => exact absurd rfl hne
    | cons b ys => simp at hlen
  | cons a xs ih =>
    cases y with
    | nil => simp at hlen
    | cons b ys =>
      simp only [sqDist, List.zipWith_cons_cons, List.sum_cons]
      by_cases hab : a = b
      · subst hab
        have hxs : ¬ xs = ys := by
          intro h
          exact hne (by rw [h])
        have h2 := ih ys (by simpa using hlen) hxs
        simp only [sqDist] at h2
        have h1 : (0 : ℚ) ≤ (a - a) ^ 2 := sq_nonneg _
        linarith
      · have h1 : 0 < (a - b) ^ 2 :=
          pow_two_pos_of_ne_zero (sub_ne_zero.mpr hab)
        have h2 := sqDist_nonneg xs ys
        simp only [sqDist] at h2
        linarith

/-- Two lists of equal length that are distinct differ at some in-range
position (stated via `getD`). -/
theorem lists_ne_exists_getD {α : Type} (dflt : α) (l1 l2 : List α)
    (hlen : l1.length = l2.length) (hne : ¬ l1 = l2) :
    ∃ d, d < l1.length ∧ ¬ l1.getD d dflt = l2.getD d dflt := by
  by_contra hc
  push_neg at hc
  apply hne
  apply List.ext_getElem hlen
  intro i h1 h2
  have h3 := hc i h1
  rw [List.getD_eq_getElem?_getD, List.getD_eq_getElem?_getD,
    List.getElem?_eq_getElem h1, List.getElem?_eq_getElem h2] at h3
  simpa using h3

/-! ### The identity case: histogram structure -/

theorem sparseHist_length_pos (samples : List (List ℚ)) (w : List ℚ)
    (H : SparseHistogram) (h : sparseHist samples w = .ok H) :
    0 < H.length := by
  obtain ⟨hne, rfl⟩ := sparseHist_ok_shape samples w H h
  rw [List.length_map]
  exact histFold_length_pos _ _ _ _ (Or.inr hne)

theorem sparseHist_index_nodup (samples : List (List ℚ)) (w : List ℚ)
    (H : SparseHistogram) (h : sparseHist samples w = .ok H) :
    (H.map Bin.index).Nodup := by
  obtain ⟨hne, rfl⟩ := sparseHist_ok_shape samples w H h
  rw [List.map_map]
  have hfn : (Bin.index ∘ fun e : List Int × ℚ =>
      (⟨e.1, binCenter w e.1, e.2⟩ : Bin)) = (fun e : List Int × ℚ => e.1) := rfl
  rw [hfn]
  exact histFold_keys_nodup samples w _ [] (by simp)

theorem sparseHist_center_eq (samples : List (List ℚ)) (w : List ℚ)
    (H : SparseHistogram) (h : sparseHist samples w = .ok H) :
    ∀ b ∈ H, b.center = binCenter w b.index := by
  obtain ⟨hne, rfl⟩ := sparseHist_ok_shape samples w H h
  intro b hb
  obtain ⟨e, he, rfl⟩ := List.mem_map.mp hb
  rfl

theorem sparseHist_index_prop (samples : List (List ℚ)) (w : List ℚ)
    (H : SparseHistogram) (h : sparseHist samples w = .ok H)
    (P : List Int → Prop) (hs : ∀ x ∈ samples, P (binIndex w x)) :
    ∀ b ∈ H, P b.index := by
  obtain ⟨hne, rfl⟩ := sparseHist_ok_shape samples w H h
  intro b hb
  obtain ⟨e, he, rfl⟩ := List.mem_map.mp hb
  have hm : e.1 ∈ (samples.foldl
      (fun acc x => bump acc (binIndex w x) (1 / (samples.length : ℚ))) []).map
        (fun e => e.1) := List.mem_map_of_mem _ he
  exact histFold_keys_from samples w _ [] P (by simp) hs e.1 hm

theorem binIndex_length (w x : List ℚ) (h : x.length = w.length) :
    (binIndex w x).length = w.length := by
  rw [binIndex, List.length_zipWith, h, min_self]

theorem binIndex_getD (w x : List ℚ) (d : Nat) (hx : d < x.length)
    (hw : d < w.length) :
    (binIndex w x).getD d 0 = ⌊x.getD d 0 / w.getD d 0⌋ := by
  have hd : d < (binIndex w x).length := by
    rw [binIndex, List.length_zipWith]
    omega
  have ex : x.getD d 0 = x[d] := by
    rw [List.getD_eq_getElem?_getD, List.getElem?_eq_getElem hx]
    rfl
  have ew : w.getD d 0 = w[d] := by
    rw [List.getD_eq_getElem?_getD, List.getElem?_eq_getElem hw]
    rfl
  rw [List.getD_eq_getElem?_getD, List.getElem?_eq_getElem hd, ex, ew]
  simp [binIndex, List.getElem_zipWith]

theorem binIndex_zero_width (w x : List ℚ) (hlen : x.length = w.length)
    (d : Nat) (hd : d < w.length) (hw0 : w.getD d 0 = 0) :
    (binIndex w x).getD d 0 = 0 := by
  rw [binIndex_getD w x d (by omega) hd, hw0, div_zero, Int.floor_zero]

theorem binCenter_length (w : List ℚ) (idx : List Int)
    (h : idx.length = w.length) : (binCenter w idx).length = w.length := by
  rw [binCenter, List.length_zipWith, h, min_self]

theorem binCenter_getD (w : List ℚ) (idx : List Int) (d : Nat)
    (hi : d < idx.length) (hw : d < w.length) :
    (binCenter w idx).getD d 0 = ((idx.getD d 0 : ℚ) + 1 / 2) * w.getD d 0 := by
  have hd : d < (binCenter w idx).length := by
    rw [binCenter, List.length_zipWith]
    omega
  have ei : idx.getD d 0 = idx[d] := by
    rw [List.getD_eq_getElem?_getD, List.getElem?_eq_getElem hi]
    rfl
  have ew : w.getD d 0 = w[d] := by
    rw [List.getD_eq_getElem?_getD, List.getElem?_eq_getElem hw]
    rfl
  rw [List.getD_eq_getElem?_getD, List.getElem?_eq_getElem hd, ei, ew]
  simp [binCenter, List.getElem_zipWith]

/-- Distinct occupied bins of a histogram built from uniform-length samples
have centers at strictly positive squared distance: the multi-indices
differ at some coordinate, the width there is nonzero (a zero width sends
every sample to floor 0 in that coordinate), and the centers separate. -/
theorem hist_center_sqDist_pos (samples : List (List ℚ)) (w : List ℚ)
    (H : SparseHistogram) (h : sparseHist samples w = .ok H)
    (hU : ∀ x ∈ samples, x.length = w.length)
    (i j : Nat) (hi : i < H.length) (hj : j < H.length) (hij : ¬ i = j) :
    0 < sqDist (histCenter H i) (histCenter H j) := by
  have hbi : H[i] ∈ H := List.getElem_mem hi
  have hbj : H[j] ∈ H := List.getElem_mem hj
  have hlenP : ∀ b ∈ H, b.index.length = w.length :=
    sparseHist_index_prop samples w H h (fun k => k.length = w.length)
      (fun x hx => binIndex_length w x (hU x hx))
  have hzP : ∀ b ∈ H, ∀ d, d < w.length → w.getD d 0 = 0 →
      b.index.getD d 0 = 0 :=
    sparseHist_index_prop samples w H h
      (fun k => ∀ d, d < w.length → w.getD d 0 = 0 → k.getD d 0 = 0)
      (fun x hx d hd hw0 => binIndex_zero_width w x (hU x hx) d hd hw0)
  have hcP := sparseHist_center_eq samples w H h
  have hci : histCenter H i = (H[i]).center := by
    rw [histCenter, List.getElem?_eq_getElem hi]
    rfl
  have hcj : histCenter H j = (H[j]).center := by
    rw [histCenter, List.getElem?_eq_getElem hj]
    rfl
  have hnd := sparseHist_index_nodup samples w H h
  have hIne : ¬ (H[i]).index = (H[j]).index := by
    intro he
    have hi' : i < (H.map Bin.index).length := by
      rw [List.length_map]
      exact hi
    have hj' : j < (H.map Bin.index).length := by
      rw [List.length_map]
      exact hj
    have hmm : (H.map Bin.index)[i] = (H.map Bin.index)[j] := by
      rw [List.getElem_map, List.getElem_map]
      exact he
    exact hij (hnd.getElem_inj_iff.mp hmm)
  obtain ⟨d, hdlt, hdne⟩ := lists_ne_exists_getD (0 : Int)
    (H[i]).index (H[j]).index (by rw [hlenP _ hbi, hlenP _ hbj]) hIne
  have hdw : d < w.length := by
    rw [hlenP _ hbi] at hdlt
    exact hdlt
  have hdi : d < (H[i]).index.length := by
    rw [hlenP _ hbi]
    exact hdw
  have hdj : d < (H[j]).index.length := by
    rw [hlenP _ hbj]
    exact hdw
  have hwd : ¬ w.getD d 0 = 0 := by
    intro h0
    exact hdne (by rw [hzP _ hbi d hdw h0, hzP _ hbj d hdw h0])
  have hCne : ¬ binCenter w (H[i]).index = binCenter w (H[j]).index := by
    intro he
    apply hdne
    have e1 := binCenter_getD w (H[i]).index d hdi hdw
    have e2 := binCenter_getD w (H[j]).index d hdj hdw
    have e3 : (((H[i]).index.getD d 0 : ℚ) + 1 / 2) * w.getD d 0
        = (((H[j]).index.getD d 0 : ℚ) + 1 / 2) * w.getD d 0 := by
      rw [← e1, ← e2, he]
    have e4 := mul_right_cancel₀ hwd e3
    have e5 : (((H[i]).index.getD d 0 : ℚ)) = ((H[j]).index.getD d 0 : ℚ) := by
      linarith
    exact_mod_cast e5
  have hclen : (binCenter w (H[i]).index).length
      = (binCenter w (H[j]).index).length := by
    rw [binCenter_length _ _ (hlenP _ hbi), binCenter_length _ _ (hlenP _ hbj)]
  rw [hci, hcj, hcP _ hbi, hcP _ hbj]
  exact sqDist_pos _ _ hclen hCne

/-! ### The identity case: the greedy initialization stays on the diagonal -/

/-- When supplies and demands are the same vector, the cost vanishes on the
diagonal and is positive off it, every greedy pick is a diagonal arc
carrying the full remaining mass of its bin, so the initial flow is a
diagonal flow. -/
theorem greedyLoop_diag (allowed : Cell → Bool) (cost : Nat → Nat → ℚ)
    (masses : List ℚ)
    (hall : ∀ c : Cell, allowed c = true)
    (hc0 : ∀ t, cost t t = 0)
    (hcpos : ∀ i j, i < masses.length → j < masses.length → ¬ i = j →
      0 < cost i j)
    (hmass : ∀ t, t < masses.length → 0 < masses.getD t 0) :
    ∀ (fuel : Nat) (s : List ℚ) (acc : FlowList),
      s.length = masses.length →
      (∀ t, s.getD t 0 = 0 ∨ s.getD t 0 = masses.getD t 0) →
      posCount s < fuel →
      ∃ tailF, greedyLoop allowed cost fuel s s acc = .ok (acc ++ tailF) ∧
        ∀ e ∈ tailF, ∃ t, t < masses.length ∧
          e = ((t, t), masses.getD t 0) ∧ ¬ s.getD t 0 = 0 := by
  intro fuel
  induction fuel with
  | zero =>
    intro s acc hlen hshape hfuel
    exact absurd hfuel (Nat.not_lt_zero _)
  | succ fuel ih =>
    intro s acc hlen hshape hfuel
    cases hp : pickMinCost cost (greedyCandidates allowed s s) with
    | none =>
      have hz : ∀ t, s.getD t 0 = 0 := by
        intro t
        by_cases ht : t < s.length
        · rcases hshape t with h0 | hm
          · exact h0
          · by_contra hnz
            have hpos : 0 < s.getD t 0 := by
              rw [hm]
              exact hmass t (by omega)
            have hcand : (t, t) ∈ greedyCandidates allowed s s :=
              (greedyCandidates_spec allowed s s (t, t)).mpr
                ⟨ht, ht, hall _, hpos, hpos⟩
            have hnil : greedyCandidates allowed s s = [] :=
              (pickMinCost_none_iff cost _).mp hp
            rw [hnil] at hcand
            simp at hcand
        · rw [List.getD_eq_getElem?_getD, List.getElem?_eq_none (by omega)]
          rfl
      have hallz : s.all (fun v => decide (v = 0)) = true := by
        rw [List.all_eq_true]
        intro v hv
        obtain ⟨i, hi, rfl⟩ := List.mem_iff_getElem.mp hv
        have hzi := hz i
        rw [List.getD_eq_getElem?_getD, List.getElem?_eq_getElem hi] at hzi
        simpa using hzi
      refine ⟨[], ?_, by simp⟩
      rw [greedyLoop, hp]
      show (if (s.all (fun v => decide (v = 0)) && s.all (fun v => decide (v = 0)) : Bool)
          then (.ok acc : Except OTError FlowList)
          else .error .infeasibleGraph) = .ok (acc ++ [])
      rw [hallz]
      simp
    | some c =>
      have hcmem := pickMinCost_mem cost _ c hp
      have hcspec := (greedyCandidates_spec allowed s s c).mp hcmem
      obtain ⟨hc1, hc2, _, hc4, hc5⟩ := hcspec
      have hdiag : c.1 = c.2 := by
        by_contra hne
        have hmem' : (c.1, c.1) ∈ greedyCandidates allowed s s :=
          (greedyCandidates_spec allowed s s (c.1, c.1)).mpr
            ⟨hc1, hc1, hall _, hc4, hc4⟩
        have hmin := pickMinCost_min cost _ c hp (c.1, c.1) hmem'
        have h0 : cost c.1 c.1 = 0 := hc0 c.1
        have hpos : 0 < cost c.1 c.2 :=
          hcpos c.1 c.2 (by omega) (by omega) hne
        simp only [h0] at hmin
        linarith
      obtain ⟨c1, c2⟩ := c
      dsimp only at hdiag hc1 hc2 hc4 hc5
      subst hdiag
      have hval : s.getD c1 0 = masses.getD c1 0 := by
        rcases hshape c1 with h0 | hm
        · rw [h0] at hc4
          exact absurd hc4 (lt_irrefl 0)
        · exact hm
      have hlen' : (s.set c1 0).length = masses.length := by
        rw [List.length_set]
        exact hlen
      have hshape' : ∀ t, (s.set c1 0).getD t 0 = 0 ∨
          (s.set c1 0).getD t 0 = masses.getD t 0 := by
        intro t
        by_cases htc : c1 = t
        · subst htc
          rw [getD_set_self_q s c1 0 hc1]
          exact Or.inl rfl
        · rw [getD_set_ne_q s c1 t 0 htc]
          exact hshape t
      have hcount : posCount (s.set c1 0) < fuel := by
        have hs' := countP_set_q (fun v => decide (0 < v)) s c1 0 hc1
        simp only [decide_eq_true_eq] at hs'
        rw [if_pos hc4, if_neg (lt_irrefl 0)] at hs'
        simp only [posCount] at hfuel ⊢
        omega
      obtain ⟨tailF, hrec, hprops⟩ :=
        ih (s.set c1 0) (acc ++ [((c1, c1), s.getD c1 0)]) hlen' hshape' hcount
      refine ⟨((c1, c1), masses.getD c1 0) :: tailF, ?_, ?_⟩
      · rw [greedyLoop, hp]
        show greedyLoop allowed cost fuel
            (s.set c1 (s.getD c1 0 - min (s.getD c1 0) (s.getD c1 0)))
            (s.set c1 (s.getD c1 0 - min (s.getD c1 0) (s.getD c1 0)))
            (acc ++ [((c1, c1), min (s.getD c1 0) (s.getD c1 0))])
          = .ok (acc ++ (((c1, c1), masses.getD c1 0) :: tailF))
        rw [min_self, sub_self, hrec, hval, List.append_assoc]
        rfl
      · intro e he
        rcases List.mem_cons.mp he with rfl | he
        · refine ⟨c1, by omega, rfl, ?_⟩
          intro h0
          rw [h0] at hc4
          exact lt_irrefl 0 hc4
        · obtain ⟨t, ht1, ht2, ht3⟩ := hprops e he
          refine ⟨t, ht1, ht2, ?_⟩
          intro hst
          by_cases htc : c1 = t
          · subst htc
            rw [getD_set_self_q s c1 0 hc1] at ht3
            exact ht3 rfl
          · rw [getD_set_ne_q s c1 t 0 htc] at ht3
            exact ht3 hst

/-! ### The identity case: potentials on a zero-cost basis vanish -/

theorem potKey_zero (cost : Nat → Nat → ℚ) (st : PotState) (c : Cell)
    (hc : cost c.1 c.2 = 0)
    (hu : ∀ r, st.u r = none ∨ st.u r = some 0)
    (hv : ∀ j, st.v j = none ∨ st.v j = some 0) :
    (∀ r, (potKey cost st c).u r = none ∨ (potKey cost st c).u r = some 0) ∧
    (∀ j, (potKey cost st c).v j = none ∨ (potKey cost st c).v j = some 0) := by
  cases h1 : st.u c.1 with
  | none =>
    cases h2 : st.v c.2 with
    | none =>
      have he : potKey cost st c = st := by rw [potKey, h1, h2]
      rw [he]
      exact ⟨hu, hv⟩
    | some vv =>
      have hv0 : vv = 0 := by
        rcases hv c.2 with h | h
        · rw [h] at h2
          simp at h2
        · rw [h] at h2
          exact (Option.some_inj.mp h2).symm
      have he : potKey cost st c =
          ⟨fun i => if i = c.1 then some (cost c.1 c.2 - vv) else st.u i,
            st.v⟩ := by
        rw [potKey, h1, h2]
      rw [he]
      refine ⟨?_, hv⟩
      intro i
      show (if i = c.1 then some (cost c.1 c.2 - vv) else st.u i) = none ∨
        (if i = c.1 then some (cost c.1 c.2 - vv) else st.u i) = some 0
      by_cases hi : i = c.1
      · rw [if_pos hi, hc, hv0]
        exact Or.inr (by norm_num)
      · rw [if_neg hi]
        exact hu i
  | some uv =>
    cases h2 : st.v c.2 with
    | none =>
      have hu0 : uv = 0 := by
        rcases hu c.1 with h | h
        · rw [h] at h1
          simp at h1
        · rw [h] at h1
          exact (Option.some_inj.mp h1).symm
      have he : potKey cost st c =
          ⟨st.u,
            fun j => if j = c.2 then some (cost c.1 c.2 - uv) else st.v j⟩ := by
        rw [potKey, h1, h2]
      rw [he]
      refine ⟨hu, ?_⟩
      intro j
      show (if j = c.2 then some (cost c.1 c.2 - uv) else st.v j) = none ∨
        (if j = c.2 then some (cost c.1 c.2 - uv) else st.v j) = some 0
      by_cases hj : j = c.2
      · rw [if_pos hj, hc, hu0]
        exact Or.inr (by norm_num)
      · rw [if_neg hj]
        exact hv j
    | some vv =>
      have he : potKey cost st c = st := by rw [potKey, h1, h2]
      rw [he]
      exact ⟨hu, hv⟩

theorem potFold_zero (cost : Nat → Nat → ℚ) :
    ∀ (keys : List Cell) (st : PotState),
    (∀ k ∈ keys, cost k.1 k.2 = 0) →
    (∀ r, st.u r = none ∨ st.u r = some 0) →
    (∀ j, st.v j = none ∨ st.v j = some 0) →
    (∀ r, (keys.foldl (potKey cost) st).u r = none ∨
      (keys.foldl (potKey cost) st).u r = some 0) ∧
    (∀ j, (keys.foldl (potKey cost) st).v j = none ∨
      (keys.foldl (potKey cost) st).v j = some 0) := by
  intro keys
  induction keys with
  | nil =>
    intro st _ hu hv
    exact ⟨hu, hv⟩
  | cons k rest ih =>
    intro st hk hu hv
    rw [List.foldl_cons]
    obtain ⟨h1, h2⟩ := potKey_zero cost st k (hk k (by simp)) hu hv
    exact ih _ (fun k' hk' => hk k' (List.mem_cons_of_mem _ hk')) h1 h2

theorem potRounds_zero (cost : Nat → Nat → ℚ) (keys : List Cell)
    (hk : ∀ k ∈ keys, cost k.1 k.2 = 0) :
    ∀ (rounds : Nat) (st : PotState),
    (∀ r, st.u r = none ∨ st.u r = some 0) →
    (∀ j, st.v j = none ∨ st.v j = some 0) →
    (∀ r, (potRounds cost keys rounds st).u r = none ∨
      (potRounds cost keys rounds st).u r = some 0) ∧
    (∀ j, (potRounds cost keys rounds st).v j = none ∨
      (potRounds cost keys rounds st).v j = some 0) := by
  intro rounds
  induction rounds with
  | zero =>
    intro st hu hv
    exact ⟨hu, hv⟩
  | succ r ih =>
    intro st hu hv
    rw [potRounds]
    obtain ⟨h1, h2⟩ := potFold_zero cost keys st hk hu hv
    exact ih _ h1 h2

theorem potSeedLoop_zero (cost : Nat → Nat → ℚ) (keys : List Cell)
    (rounds : Nat) (hk : ∀ k ∈ keys, cost k.1 k.2 = 0) :
    ∀ (rows : List Nat) (st : PotState),
    (∀ r, st.u r = none ∨ st.u r = some 0) →
    (∀ j, st.v j = none ∨ st.v j = some 0) →
    (∀ r, (potSeedLoop cost keys rounds rows st).u r = none ∨
      (potSeedLoop cost keys rounds rows st).u r = some 0) ∧
    (∀ j, (potSeedLoop cost keys rounds rows st).v j = none ∨
      (potSeedLoop cost keys rounds rows st).v j = some 0) := by
  intro rows
  induction rows with
  | nil =>
    intro st hu hv
    exact ⟨hu, hv⟩
  | cons r rest ih =>
    intro st hu hv
    rw [potSeedLoop]
    by_cases hr : (st.u r).isNone
    · rw [if_pos hr]
      have hu' : ∀ i, (if i = r then some (0 : ℚ) else st.u i) = none ∨
          (if i = r then some (0 : ℚ) else st.u i) = some 0 := by
        intro i
        by_cases hi : i = r
        · rw [if_pos hi]
          exact Or.inr rfl
        · rw [if_neg hi]
          exact hu i
      obtain ⟨h1, h2⟩ := potRounds_zero cost keys hk rounds
        ⟨fun i => if i = r then some 0 else st.u i, st.v⟩ hu' hv
      exact ih _ h1 h2
    · rw [if_neg hr]
      exact ih _ hu hv

theorem potentials_zero (cost : Nat → Nat → ℚ) (keys : List Cell) (n m : Nat)
    (hk : ∀ k ∈ keys, cost k.1 k.2 = 0) :
    (∀ i, (potentials cost keys n m).1 i = 0) ∧
    (∀ j, (potentials cost keys n m).2 j = 0) := by
  obtain ⟨h1, h2⟩ := potSeedLoop_zero cost keys (n + m) hk (List.range n)
    ⟨fun _ => none, fun _ => none⟩ (fun _ => Or.inl rfl) (fun _ => Or.inl rfl)
  constructor
  · intro i
    simp only [potentials]
    rcases h1 i with h | h
    · rw [h]
      rfl
    · rw [h]
      rfl
  · intro j
    simp only [potentials]
    rcases h2 j with h | h
    · rw [h]
      rfl
    · rw [h]
      rfl

/-- When every basic arc has zero cost and all costs are nonnegative, the
potentials vanish, every reduced cost is nonnegative, and the entering-arc
scan reports optimality. -/
theorem enteringArc_none_of_nonneg (allowed : Cell → Bool)
    (cost : Nat → Nat → ℚ) (keys : List Cell) (n m : Nat)
    (hk : ∀ k ∈ keys, cost k.1 k.2 = 0)
    (hnn : ∀ i j, 0 ≤ cost i j) :
    enteringArc allowed cost keys n m = none := by
  obtain ⟨h1, h2⟩ := potentials_zero cost keys n m hk
  have hcand : enteringCandidates allowed cost keys
      (potentials cost keys n m).1 (potentials cost keys n m).2 n m = [] := by
    rw [enteringCandidates, List.filter_eq_nil_iff]
    intro c hc
    simp only [Bool.and_eq_true, decide_eq_true_eq, not_and]
    intro _
    simp only [not_lt, reducedCost]
    rw [h1 c.1, h2 c.2]
    have := hnn c.1 c.2
    linarith
  simp only [enteringArc]
  rw [hcand]
  rfl

/-! ### The identity case: assembling the run -/

theorem planCost_zero (cost : Nat → Nat → ℚ) (p : TransportPlan)
    (h : ∀ e ∈ p, cost e.1.1 e.1.2 = 0) : planCost cost p = 0 := by
  induction p with
  | nil => rfl
  | cons e rest ih =>
    simp only [planCost, List.map_cons, List.sum_cons]
    rw [h e (by simp), mul_zero, zero_add]
    exact ih (fun e' he' => h e' (List.mem_cons_of_mem _ he'))

theorem projSum_eq_zero_of_none (pi : Cell → Nat) (f : FlowList) (r : Nat)
    (h : ∀ e ∈ f, ¬ pi e.1 = r) : projSum pi f r = 0 := by
  induction f with
  | nil => rfl
  | cons e rest ih =>
    rw [projSum_cons, if_neg (h e (by simp)),
      ih (fun e' he' => h e' (List.mem_cons_of_mem _ he'))]
    ring

theorem exists_mem_of_projSum_ne (pi : Cell → Nat) (f : FlowList) (r : Nat)
    (h : ¬ projSum pi f r = 0) : ∃ e ∈ f, pi e.1 = r := by
  by_contra hc
  push_neg at hc
  exact h (projSum_eq_zero_of_none pi f r hc)

theorem flowAt_not_mem (f : FlowList) (c : Cell) (h : ¬ c ∈ flowKeys f) :
    flowAt f c = 0 := by
  rw [flowAt]
  have hf : f.find? (fun e => decide (e.1 = c)) = none := by
    rw [List.find?_eq_none]
    intro e he
    simp only [decide_eq_true_eq]
    intro hec
    exact h (by rw [← hec]; exact List.mem_map_of_mem _ he)
  rw [hf]
  rfl

/-- Evaluating the solver core when the greedy flow is already optimal:
the simplex loop stops at the first entering-arc scan, and the plan is the
greedy flow itself. -/
theorem runCore_eval (allowed : Cell → Bool) (cost : Nat → Nat → ℚ)
    (n m fuel1 mi : Nat) (sups dems : List ℚ) (f0 : FlowList)
    (hg : greedyLoop allowed cost fuel1 sups dems [] = .ok f0)
    (he : enteringArc allowed cost (flowKeys f0) n m = none)
    (hfilter : assemblePlan f0 = f0)
    (hcost : planCost cost f0 = 0) :
    (greedyLoop allowed cost fuel1 sups dems []).bind (fun g0 =>
      (solveLoop allowed cost n m (mi + 1) g0).map
        (fun fF => (assemblePlan fF, planCost cost (assemblePlan fF))))
      = .ok (f0, 0) := by
  rw [hg]
  show (solveLoop allowed cost n m (mi + 1) f0).map
      (fun fF => (assemblePlan fF, planCost cost (assemblePlan fF)))
    = .ok (f0, 0)
  rw [solveLoop, he]
  show Except.ok (assemblePlan f0, planCost cost (assemblePlan f0))
    = .ok (f0, 0)
  rw [hfilter, hcost]

/-- Claim C2: identity on equal inputs.  For every SparseHistogram `A`
produced by the histogram construction (dense graph mode, the default
squared-Euclidean cost, either mass policy, any positive iteration cap,
any nonnegative tolerance), solving the transport problem with both source
and sink distributions equal to `A` yields the identity transport plan —
`plan[t][t] = mass_t` for every bin `t`, every off-diagonal entry absent
(looked up as zero, and no off-diagonal entry is stored) — and a total
transport cost of 0. -/
theorem identity_on_equal_inputs (kN : Nat) (policy : MassPolicy)
    (maxIter : Nat) (eps : ℚ) (sA : List (List ℚ)) (wA : List ℚ)
    (A : SparseHistogram)
    (hA : sparseHist sA wA = .ok A)
    (hU : ∀ x ∈ sA, x.length = wA.length)
    (hiter : 1 ≤ maxIter) (heps : 0 ≤ eps) :
    ∃ plan, otSolve ⟨GraphMode.dense, kN, sqDist, policy, maxIter, eps⟩ A A
        = .ok (plan, 0) ∧
      (∀ e ∈ plan, e.1.1 = e.1.2) ∧
      (∀ t, t < A.length → flowAt plan (t, t) = histMass A t) ∧
      (∀ i j, ¬ i = j → flowAt plan (i, j) = 0) := by
  obtain ⟨mi, rfl⟩ : ∃ mi, maxIter = mi + 1 := ⟨maxIter - 1, by omega⟩
  have hmlen : (histMasses A).length = A.length := by
    rw [histMasses, List.length_map]
  have hnpos : 0 < A.length := sparseHist_length_pos sA wA A hA
  have hmass : ∀ t, t < (histMasses A).length →
      0 < (histMasses A).getD t 0 := by
    intro t ht
    rw [histMasses_getD, histMass]
    have ht' : t < A.length := by omega
    rw [List.getElem?_eq_getElem ht']
    show 0 < (A[t]).mass
    exact sparseHist_mass_pos sA wA A hA _ (List.getElem_mem ht')
  have hc0 : ∀ t, sqDist (histCenter A t) (histCenter A t) = 0 :=
    fun t => sqDist_self _
  have hcpos : ∀ i j, i < (histMasses A).length → j < (histMasses A).length →
      ¬ i = j → 0 < sqDist (histCenter A i) (histCenter A j) := by
    intro i j hi hj hij
    exact hist_center_sqDist_pos sA wA A hA hU i j (by omega) (by omega) hij
  have hfuel : posCount (histMasses A) < A.length + A.length + 1 := by
    have hcp : posCount (histMasses A) ≤ (histMasses A).length := by
      rw [posCount]
      exact List.countP_le_length _
    omega
  obtain ⟨tailF, hg0, hprops⟩ := greedyLoop_diag
    (allowedArcs ⟨GraphMode.dense, kN, sqDist, policy, mi + 1, eps⟩
      (fun i j => sqDist (histCenter A i) (histCenter A j)) A.length A.length)
    (fun i j => sqDist (histCenter A i) (histCenter A j))
    (histMasses A) (fun c => rfl) hc0 hcpos hmass
    (A.length + A.length + 1) (histMasses A) [] rfl (fun t => Or.inr rfl) hfuel
  rw [List.nil_append] at hg0
  have hkeys0 : ∀ k ∈ flowKeys tailF,
      sqDist (histCenter A k.1) (histCenter A k.2) = 0 := by
    intro k hk
    obtain ⟨v, hv⟩ := exists_val_of_key_mem tailF k hk
    obtain ⟨t, ht1, ht2, _⟩ := hprops _ hv
    have hk1 : k = (t, t) := congrArg Prod.fst ht2
    rw [hk1]
    exact sqDist_self _
  have hent : enteringArc
      (allowedArcs ⟨GraphMode.dense, kN, sqDist, policy, mi + 1, eps⟩
        (fun i j => sqDist (histCenter A i) (histCenter A j)) A.length A.length)
      (fun i j => sqDist (histCenter A i) (histCenter A j))
      (flowKeys tailF) A.length A.length = none :=
    enteringArc_none_of_nonneg _ _ _ _ _ hkeys0 (fun i j => sqDist_nonneg _ _)
  have hpos : ∀ e ∈ tailF, 0 < e.2 := by
    intro e he
    obtain ⟨t, ht1, ht2, _⟩ := hprops e he
    have hv : e.2 = (histMasses A).getD t 0 := congrArg Prod.snd ht2
    rw [hv]
    exact hmass t ht1
  have hfilter : assemblePlan tailF = tailF := by
    rw [assemblePlan, List.filter_eq_self]
    intro e he
    exact decide_eq_true (hpos e he)
  have hcost0 : planCost
      (fun i j => sqDist (histCenter A i) (histCenter A j)) tailF = 0 := by
    apply planCost_zero
    intro e he
    obtain ⟨t, ht1, ht2, _⟩ := hprops e he
    have hk : e.1 = (t, t) := congrArg Prod.fst ht2
    rw [hk]
    exact sqDist_self _
  have hnd : (flowKeys tailF).Nodup :=
    greedyLoop_ok_nodup _ _ _ _ _ _ _ hg0 (by simp [flowKeys]) (by simp)
  have hsums := greedyLoop_ok_sums _ _ _ _ _ _ _ hg0
  have hsum1 : (histMasses A).sum = 1 := sparseHist_masses_sum sA wA A hA
  refine ⟨tailF, ?_, ?_, ?_, ?_⟩
  · have hn : ¬ (A.length = 0 ∨ A.length = 0) := by omega
    cases policy with
    | failOnMismatch =>
      simp only [otSolve]
      rw [if_neg hn, sub_self, abs_zero, if_pos heps]
      exact runCore_eval _ _ _ _ _ _ _ _ tailF hg0 hent hfilter hcost0
    | rescale =>
      simp only [otSolve]
      rw [if_neg hn]
      have hmap : (histMasses A).map
          (fun v => v * ((histMasses A).sum / (histMasses A).sum))
          = histMasses A := by
        rw [hsum1]
        simp
      rw [hmap]
      exact runCore_eval _ _ _ _ _ _ _ _ tailF hg0 hent hfilter hcost0
  · intro e he
    obtain ⟨t, ht1, ht2, _⟩ := hprops e he
    have hk : e.1 = (t, t) := congrArg Prod.fst ht2
    rw [hk]
  · intro t ht
    have hrow : rowSum tailF t = (histMasses A).getD t 0 := by
      have h1 := hsums.1 t
      have h0 : rowSum ([] : FlowList) t = 0 := rfl
      rw [h1, h0, zero_add]
    have hne0 : ¬ rowSum tailF t = 0 := by
      rw [hrow]
      have := hmass t (by omega)
      linarith
    obtain ⟨e, he, hrow_e⟩ := exists_mem_of_projSum_ne Prod.fst tailF t hne0
    obtain ⟨t', ht1', ht2', _⟩ := hprops e he
    have hk : e.1 = (t', t') := congrArg Prod.fst ht2'
    have h1 : e.1.1 = t' := by rw [hk]
    have h2 : e.1.1 = t := hrow_e
    have htt : t' = t := by omega
    subst htt
    have hval := flowAt_of_mem tailF (t', t') ((histMasses A).getD t' 0) hnd
      (by rw [← ht2']; exact he)
    rw [hval, histMasses_getD]
  · intro i j hij
    apply flowAt_not_mem
    intro hk
    obtain ⟨v, hv⟩ := exists_val_of_key_mem tailF _ hk
    obtain ⟨t, _, ht2, _⟩ := hprops _ hv
    have hk1 : ((i, j) : Cell) = (t, t) := congrArg Prod.fst ht2
    have hi : i = t := congrArg Prod.fst hk1
    have hj : j = t := congrArg Prod.snd hk1
    exact hij (by rw [hi, hj])

/-- Witness for claim C2: on the one-bin histogram built from a single
sample, the solver returns the identity plan with cost 0. -/
theorem identity_on_equal_inputs_witness :
    ∃ plan,
      otSolve ⟨GraphMode.dense, 0, sqDist, MassPolicy.failOnMismatch, 1, 0⟩
          [⟨[0], [1/2], 1⟩] [⟨[0], [1/2], 1⟩] = .ok (plan, 0) ∧
      (∀ e ∈ plan, e.1.1 = e.1.2) ∧
      (∀ t, t < ([⟨[0], [1/2], 1⟩] : SparseHistogram).length →
        flowAt plan (t, t) = histMass [⟨[0], [1/2], 1⟩] t) ∧
      (∀ i j, ¬ i = j → flowAt plan (i, j) = 0) :=
  identity_on_equal_inputs 0 MassPolicy.failOnMismatch 1 0 [[0]] [1]
    [⟨[0], [1/2], 1⟩]
    (by simp [sparseHist, bump, binIndex, binCenter])
    (by intro x hx; rw [List.mem_singleton] at hx; rw [hx]; rfl)
    (by norm_num) (by norm_num)

end SBCK
